import Mathlib

/-!
# Verification development for the pnp-rs PnP resolver

Shallow embedding of the core of the `pnp` crate (path normalizer,
virtual-path classifier, zip central-directory reader and index, manifest
initialisation and the resolution engine), together with theorems settling
the specification claims.

Paths and other strings are modelled as `List Char`; archive bytes as
`List Nat` (each < 256).  `usize` arithmetic is modelled on `Nat` with the
wrap at `2 ^ 64` made explicit where the source can underflow.
-/

namespace PnP

/-! ## util.rs — path normalizer

`normalize_path` (src/util.rs lines 88-143), compiled for a Unix host:
`to_portable_path` / `from_portable_path` are the identity (their bodies are
`#[cfg(windows)]`-gated) and `MAIN_SEPARATOR_STR` is `"/"`.
-/

/-- A path-separator byte: the Rust code splits on the set `{'/', '\\'}`. -/
def isSep (c : Char) : Bool := c = '/' || c = '\\'

/-- `str::split` on a character class: splits into (possibly empty)
components; splitting the empty string yields `[[]]`, like Rust. -/
def splitBy (f : Char → Bool) : List Char → List (List Char)
  | [] => [[]]
  | c :: rest =>
    if f c then [] :: splitBy f rest
    else
      match splitBy f rest with
      | [] => [[c]]
      | h :: t => (c :: h) :: t

/-- The `".."` component. -/
def dotdot : List Char := ['.', '.']

/-- One step of the component walk of `normalize_path`, acting on the output
stack kept in reversed order (head = `out.last()` in the Rust `Vec`). -/
def stepR (rooted : Bool) (rout : List (List Char)) (comp : List Char) :
    List (List Char) :=
  if comp = [] ∨ comp = ['.'] then rout
  else if comp = dotdot then
    match rout with
    | [] => if rooted then [] else dotdot :: []
    | top :: rest => if top = dotdot then dotdot :: top :: rest else rest
  else
    comp :: rout

/-- The component walk of `normalize_path` (the `for comp in components`
loop), returning the output stack in its natural order. -/
def normComps (rooted : Bool) (comps : List (List Char)) : List (List Char) :=
  (comps.foldl (stepR rooted) []).reverse

/-- `out.join("/")`. -/
def joinSlash : List (List Char) → List Char
  | [] => []
  | [c] => c
  | c :: rest => c ++ '/' :: joinSlash rest

/-- `str.ends_with('/')`. -/
def endsSlash (l : List Char) : Bool := l.getLast? = some '/'

/-- `original_str.strip_prefix('/')` succeeded. -/
def isRooted (s : List Char) : Bool := s.head? = some '/'

/-- The tail of `normalize_path` (src/util.rs lines 122-142): re-rooting,
joining, the `"/"` / `"."` short-circuits, and trailing-slash restoration. -/
def normAssemble (rooted trailing : Bool) (out : List (List Char)) :
    List Char :=
  if rooted then
    if out = [] then ['/']
    else
      let str := '/' :: joinSlash out
      if trailing && !endsSlash str then str ++ ['/'] else str
  else
    if out = [] then ['.']
    else
      let str := joinSlash out
      if trailing && !endsSlash str then str ++ ['/'] else str

/-- `normalize_path` from src/util.rs (Unix configuration).  The same
algorithm is the `arca::path::normalize_path` used by `vpath` in src/fs.rs
(spec §4.1 describes the one normalizer shared by both). -/
def normalize_path (s : List Char) : List Char :=
  let rest := if isRooted s then s.tail else s
  normAssemble (isRooted s) (endsSlash s)
    (normComps (isRooted s) (splitBy isSep rest))

/-- Shorthand turning a string literal into the `List Char` path model. -/
def cs (s : String) : List Char := s.toList

-- Sanity checks mirroring the unit tests of src/util.rs.
theorem normalize_path_empty : normalize_path (cs "") = cs "." := by decide
theorem normalize_path_root : normalize_path (cs "/") = cs "/" := by decide
theorem normalize_path_dots :
    normalize_path (cs "foo/../../bar") = cs "../bar" := by decide
theorem normalize_path_clamp :
    normalize_path (cs "/foo/../../bar/baz") = cs "/bar/baz" := by decide
theorem normalize_path_trail :
    normalize_path (cs "/../foo/bar//") = cs "/foo/bar/" := by decide

/-! ### Idempotence of the normalizer (claim C8) -/

/-- A component free of separator characters. -/
def sepFree (c : List Char) : Prop := ∀ ch ∈ c, isSep ch = false

/-- A component that the walk pushes unconditionally: neither empty, `"."`
nor `".."`, and separator-free. -/
def Good (c : List Char) : Prop :=
  c ≠ [] ∧ c ≠ ['.'] ∧ c ≠ dotdot ∧ sepFree c

lemma splitBy_ne_nil (f : Char → Bool) (s : List Char) : splitBy f s ≠ [] := by
  cases s with
  | nil => simp [splitBy]
  | cons c rest =>
    simp only [splitBy]
    split
    · simp
    · split <;> simp

lemma mem_splitBy_sepFree (f : Char → Bool) (s : List Char) :
    ∀ c ∈ splitBy f s, ∀ ch ∈ c, f ch = false := by
  induction s with
  | nil =>
    intro c hc ch hch
    simp only [splitBy, List.mem_singleton] at hc
    subst hc
    simp at hch
  | cons a rest ih =>
    intro c hc ch hch
    by_cases ha : f a
    · rw [show splitBy f (a :: rest) = [] :: splitBy f rest from by
        simp [splitBy, ha]] at hc
      rcases List.mem_cons.mp hc with h3 | h3
      · subst h3; simp at hch
      · exact ih c h3 ch hch
    · rcases hsp : splitBy f rest with _ | ⟨h, t⟩
      · exact absurd hsp (splitBy_ne_nil f rest)
      · rw [show splitBy f (a :: rest) = (a :: h) :: t from by
          simp [splitBy, ha, hsp]] at hc
        rcases List.mem_cons.mp hc with h3 | h3
        · subst h3
          rcases List.mem_cons.mp hch with h4 | h4
          · subst h4; simpa using ha
          · exact ih h (by rw [hsp]; exact List.mem_cons_self h t) ch h4
        · exact ih c (by rw [hsp]; exact List.mem_cons_of_mem h h3) ch hch

lemma splitBy_of_free (f : Char → Bool) (x : List Char)
    (h : ∀ ch ∈ x, f ch = false) : splitBy f x = [x] := by
  induction x with
  | nil => simp [splitBy]
  | cons c rest ih =>
    have hc : f c = false := h c (List.mem_cons_self c rest)
    have hrest : splitBy f rest = [rest] :=
      ih (fun ch hch => h ch (List.mem_cons_of_mem c hch))
    simp [splitBy, hc, hrest]

lemma splitBy_append_free (f : Char → Bool) (x y : List Char)
    (h : ∀ ch ∈ x, f ch = false) :
    ∃ hd tl, splitBy f y = hd :: tl ∧ splitBy f (x ++ y) = (x ++ hd) :: tl := by
  induction x with
  | nil =>
    rcases hsp : splitBy f y with _ | ⟨hd, tl⟩
    · exact absurd hsp (splitBy_ne_nil f y)
    · exact ⟨hd, tl, rfl, by simpa using hsp⟩
  | cons c rest ih =>
    have hc : f c = false := h c (List.mem_cons_self c rest)
    obtain ⟨hd, tl, h1, h2⟩ := ih (fun ch hch => h ch (List.mem_cons_of_mem c hch))
    refine ⟨hd, tl, h1, ?_⟩
    simp only [List.cons_append, splitBy, hc]
    simp [h2]

lemma joinSlash_ne_nil (l : List (List Char)) (hne : l ≠ [])
    (h : ∀ c ∈ l, c ≠ []) : joinSlash l ≠ [] := by
  cases l with
  | nil => exact absurd rfl hne
  | cons c rest =>
    cases rest with
    | nil => simpa [joinSlash] using h c (List.mem_cons_self c [])
    | cons d rest' =>
      have : c ≠ [] := h c (List.mem_cons_self c _)
      simp only [joinSlash]
      intro hcontra
      rcases List.append_eq_nil.mp hcontra with ⟨h1, _⟩
      exact this h1

lemma joinSlash_cons (c : List Char) (rest : List (List Char)) (hne : rest ≠ []) :
    joinSlash (c :: rest) = c ++ '/' :: joinSlash rest := by
  cases rest with
  | nil => exact absurd rfl hne
  | cons d rest' => rfl

lemma splitBy_joinSlash (l : List (List Char)) (hne : l ≠ [])
    (h : ∀ c ∈ l, sepFree c) :
    splitBy isSep (joinSlash l) = l := by
  induction l with
  | nil => exact absurd rfl hne
  | cons c rest ih =>
    cases rest with
    | nil =>
      simpa [joinSlash] using
        splitBy_of_free isSep c (h c (List.mem_cons_self c []))
    | cons d rest' =>
      rw [joinSlash_cons c (d :: rest') (by simp)]
      obtain ⟨hd, tl, h1, h2⟩ :=
        splitBy_append_free isSep c ('/' :: joinSlash (d :: rest'))
          (h c (List.mem_cons_self c _))
      have hslash : splitBy isSep ('/' :: joinSlash (d :: rest'))
          = [] :: splitBy isSep (joinSlash (d :: rest')) := by
        simp [splitBy, isSep]
      have hrest : splitBy isSep (joinSlash (d :: rest')) = d :: rest' :=
        ih (by simp) (fun x hx => h x (List.mem_cons_of_mem c hx))
      rw [hslash, hrest] at h1
      injection h1 with e1 e2
      subst e1
      subst e2
      simpa using h2

lemma splitBy_append_slash (y : List Char) :
    splitBy isSep (y ++ ['/']) = splitBy isSep y ++ [[]] := by
  induction y with
  | nil => simp [splitBy, isSep]
  | cons c rest ih =>
    by_cases hc : isSep c
    · rw [List.cons_append]
      rw [show splitBy isSep (c :: (rest ++ ['/']))
          = [] :: splitBy isSep (rest ++ ['/']) from by simp [splitBy, hc]]
      rw [show splitBy isSep (c :: rest) = [] :: splitBy isSep rest from by
        simp [splitBy, hc]]
      rw [ih]
      simp
    · rw [List.cons_append]
      rcases hsp : splitBy isSep rest with _ | ⟨hd, tl⟩
      · exact absurd hsp (splitBy_ne_nil isSep rest)
      · rw [hsp] at ih
        rcases hsp2 : splitBy isSep (rest ++ ['/']) with _ | ⟨hd2, tl2⟩
        · exact absurd hsp2 (splitBy_ne_nil isSep (rest ++ ['/']))
        · rw [hsp2] at ih
          injection ih with e1 e2
          rw [show splitBy isSep (c :: (rest ++ ['/']))
              = (c :: hd2) :: tl2 from by simp [splitBy, hc, hsp2]]
          rw [show splitBy isSep (c :: rest) = (c :: hd) :: tl from by
            simp [splitBy, hc, hsp]]
          rw [e1, e2]
          simp

lemma stepR_good (rooted : Bool) (rout : List (List Char)) (c : List Char)
    (h : Good c) : stepR rooted rout c = c :: rout := by
  obtain ⟨h1, h2, h3, _⟩ := h
  unfold stepR
  rw [if_neg (by simp [h1, h2]), if_neg h3]

lemma foldl_stepR_good (rooted : Bool) (comps : List (List Char))
    (h : ∀ c ∈ comps, Good c) (rout : List (List Char)) :
    comps.foldl (stepR rooted) rout = comps.reverse ++ rout := by
  induction comps generalizing rout with
  | nil => simp
  | cons c rest ih =>
    rw [List.foldl_cons, stepR_good rooted rout c (h c (List.mem_cons_self c rest)),
      ih (fun x hx => h x (List.mem_cons_of_mem c hx))]
    simp

lemma stepR_dots (i : Nat) :
    stepR false (List.replicate i dotdot) dotdot
      = List.replicate (i + 1) dotdot := by
  cases i with
  | zero =>
    unfold stepR
    rw [if_neg (by simp [dotdot]), if_pos rfl]
    simp
  | succ n =>
    unfold stepR
    rw [if_neg (by simp [dotdot]), if_pos rfl]
    simp [List.replicate_succ]

lemma foldl_stepR_dots (k i : Nat) :
    (List.replicate k dotdot).foldl (stepR false) (List.replicate i dotdot)
      = List.replicate (i + k) dotdot := by
  induction k generalizing i with
  | zero => simp
  | succ n ih =>
    rw [List.replicate_succ, List.foldl_cons, stepR_dots i, ih (i + 1)]
    congr 1
    omega

lemma stepR_empty (rooted : Bool) (rout : List (List Char)) :
    stepR rooted rout [] = rout := by
  unfold stepR
  rw [if_pos (Or.inl rfl)]

/-- Shape invariant of the output stack: a block of `".."` at the bottom
(only when unrooted) under components that belong to the output verbatim. -/
def WfR (rooted : Bool) (rout : List (List Char)) : Prop :=
  ∃ w k, rout = w ++ List.replicate k dotdot ∧ (∀ c ∈ w, Good c) ∧
    (rooted = true → k = 0)

lemma stepR_wf (rooted : Bool) (rout : List (List Char)) (comp : List Char)
    (hwf : WfR rooted rout) (hfree : sepFree comp) :
    WfR rooted (stepR rooted rout comp) := by
  obtain ⟨w, k, hr, hw, hk⟩ := hwf
  by_cases h1 : comp = [] ∨ comp = ['.']
  · unfold stepR
    rw [if_pos h1]
    exact ⟨w, k, hr, hw, hk⟩
  · by_cases h2 : comp = dotdot
    · unfold stepR
      rw [if_neg h1, if_pos h2]
      cases rout with
      | nil =>
        show WfR rooted (if rooted = true then [] else [dotdot])
        cases rooted with
        | false => exact ⟨[], 1, by simp, by simp, by simp⟩
        | true => exact ⟨[], 0, by simp, by simp, by simp⟩
      | cons top rest =>
        show WfR rooted (if top = dotdot then dotdot :: top :: rest else rest)
        by_cases htop : top = dotdot
        · rw [if_pos htop]
          have hwnil : w = [] := by
            cases hw2 : w with
            | nil => rfl
            | cons a w' =>
              exfalso
              rw [hw2] at hr
              simp only [List.cons_append] at hr
              injection hr with e1 _
              have hga : Good a := hw a (by rw [hw2]; exact List.mem_cons_self a w')
              exact hga.2.2.1 (by rw [← e1]; exact htop)
          rw [hwnil] at hr
          simp only [List.nil_append] at hr
          refine ⟨[], k + 1, ?_, by simp, ?_⟩
          · rw [List.nil_append, List.replicate_succ, ← hr]
          · intro hroot
            exfalso
            have hk0 := hk hroot
            rw [hk0] at hr
            simp at hr
        · rw [if_neg htop]
          cases hw2 : w with
          | nil =>
            exfalso
            rw [hw2] at hr
            simp only [List.nil_append] at hr
            cases hk2 : k with
            | zero => rw [hk2] at hr; simp at hr
            | succ n =>
              rw [hk2, List.replicate_succ] at hr
              injection hr with e1 _
              exact htop e1
          | cons a w' =>
            rw [hw2] at hr
            simp only [List.cons_append] at hr
            injection hr with e1 e2
            exact ⟨w', k, e2, fun x hx => hw x (by rw [hw2]; exact List.mem_cons_of_mem a hx), hk⟩
    · unfold stepR
      rw [if_neg h1, if_neg h2]
      push_neg at h1
      refine ⟨comp :: w, k, by simp [hr], ?_, hk⟩
      intro x hx
      rcases List.mem_cons.mp hx with hx | hx
      · subst hx
        exact ⟨h1.1, h1.2, h2, hfree⟩
      · exact hw x hx

lemma foldl_stepR_wf (rooted : Bool) (comps : List (List Char))
    (h : ∀ c ∈ comps, sepFree c) (rout : List (List Char))
    (hwf : WfR rooted rout) :
    WfR rooted (comps.foldl (stepR rooted) rout) := by
  induction comps generalizing rout with
  | nil => simpa using hwf
  | cons c rest ih =>
    rw [List.foldl_cons]
    exact ih (fun x hx => h x (List.mem_cons_of_mem c hx))
      (stepR rooted rout c) (stepR_wf rooted rout c hwf (h c (List.mem_cons_self c rest)))

lemma normComps_wf (rooted : Bool) (s : List Char) :
    WfR rooted ((splitBy isSep s).foldl (stepR rooted) []) :=
  foldl_stepR_wf rooted (splitBy isSep s)
    (fun c hc => mem_splitBy_sepFree isSep s c hc) [] ⟨[], 0, by simp, by simp, by simp⟩

lemma joinSlash_not_endsSlash (l : List (List Char)) (hne : l ≠ [])
    (h : ∀ c ∈ l, c ≠ [] ∧ sepFree c) : endsSlash (joinSlash l) = false := by
  induction l with
  | nil => exact absurd rfl hne
  | cons c rest ih =>
    cases rest with
    | nil =>
      obtain ⟨hc1, hc2⟩ := h c (List.mem_cons_self c [])
      have hne2 : c.getLast? ≠ some '/' := by
        intro hcon
        have hmem : '/' ∈ c := List.mem_of_getLast?_eq_some hcon
        have := hc2 '/' hmem
        simp [isSep] at this
      simp [joinSlash, endsSlash, hne2]
    | cons d rest' =>
      rw [joinSlash_cons c (d :: rest') (by simp)]
      have hjne : joinSlash (d :: rest') ≠ [] :=
        joinSlash_ne_nil (d :: rest') (by simp)
          (fun x hx => (h x (List.mem_cons_of_mem c hx)).1)
      have ihr := ih (by simp) (fun x hx => h x (List.mem_cons_of_mem c hx))
      have hstep1 : (c ++ '/' :: joinSlash (d :: rest')).getLast?
          = ('/' :: joinSlash (d :: rest')).getLast? :=
        List.getLast?_append_of_ne_nil c (by simp)
      have hstep2 : ('/' :: joinSlash (d :: rest')).getLast?
          = (joinSlash (d :: rest')).getLast? := by
        have hx : ('/' :: joinSlash (d :: rest'))
            = ['/'] ++ joinSlash (d :: rest') := rfl
        rw [hx, List.getLast?_append_of_ne_nil ['/'] hjne]
      simp only [endsSlash] at ihr ⊢
      rw [hstep1, hstep2]
      exact ihr

lemma joinSlash_head (c : List Char) (rest : List (List Char)) (hc : c ≠ []) :
    (joinSlash (c :: rest)).head? = c.head? := by
  cases rest with
  | nil => rfl
  | cons d rest' =>
    rw [joinSlash_cons c (d :: rest') (by simp)]
    cases c with
    | nil => exact absurd rfl hc
    | cons a t => simp

/-- Normal forms: the possible outputs of `normalize_path`. -/
def NF (n : List Char) : Prop :=
  n = ['/'] ∨ n = ['.'] ∨
  (∃ w, w ≠ [] ∧ (∀ c ∈ w, Good c) ∧
    (n = '/' :: joinSlash w ∨ n = ('/' :: joinSlash w) ++ ['/'])) ∨
  (∃ k w, (k ≠ 0 ∨ w ≠ []) ∧ (∀ c ∈ w, Good c) ∧
    (n = joinSlash (List.replicate k dotdot ++ w) ∨
     n = joinSlash (List.replicate k dotdot ++ w) ++ ['/']))

lemma normAssemble_NF (b tr : Bool) (k : Nat) (w : List (List Char))
    (hw : ∀ c ∈ w, Good c) (hk : b = true → k = 0) :
    NF (normAssemble b tr (List.replicate k dotdot ++ w)) := by
  cases b with
  | true =>
    have hk0 : k = 0 := hk rfl
    subst hk0
    simp only [List.replicate_zero, List.nil_append]
    unfold normAssemble
    simp only [if_true]
    by_cases hwe : w = []
    · rw [if_pos hwe]
      exact Or.inl rfl
    · rw [if_neg hwe]
      refine Or.inr (Or.inr (Or.inl ⟨w, hwe, hw, ?_⟩))
      split
      · exact Or.inr rfl
      · exact Or.inl rfl
  | false =>
    unfold normAssemble
    simp only [Bool.false_eq_true, if_false]
    by_cases hoe : List.replicate k dotdot ++ w = []
    · rw [if_pos hoe]
      exact Or.inr (Or.inl rfl)
    · rw [if_neg hoe]
      have hkw : k ≠ 0 ∨ w ≠ [] := by
        by_contra hcon
        push_neg at hcon
        rw [hcon.1, hcon.2] at hoe
        simp at hoe
      refine Or.inr (Or.inr (Or.inr ⟨k, w, hkw, hw, ?_⟩))
      split
      · exact Or.inr rfl
      · exact Or.inl rfl

lemma normalize_path_def (s : List Char) :
    normalize_path s = normAssemble (isRooted s) (endsSlash s)
      (normComps (isRooted s) (splitBy isSep (if isRooted s then s.tail else s))) :=
  rfl

lemma normalize_path_NF (s : List Char) : NF (normalize_path s) := by
  rw [normalize_path_def]
  obtain ⟨w, k, hr, hw, hk⟩ :=
    normComps_wf (isRooted s) (if isRooted s then s.tail else s)
  have hout : normComps (isRooted s)
      (splitBy isSep (if isRooted s then s.tail else s))
      = List.replicate k dotdot ++ w.reverse := by
    unfold normComps
    rw [hr]
    simp
  rw [hout]
  exact normAssemble_NF (isRooted s) (endsSlash s) k w.reverse
    (fun c hc => hw c (List.mem_reverse.mp hc)) hk

lemma normAssemble_true (tr : Bool) (out : List (List Char)) (hne : out ≠ []) :
    normAssemble true tr out
      = if tr && !endsSlash ('/' :: joinSlash out)
        then ('/' :: joinSlash out) ++ ['/'] else '/' :: joinSlash out := by
  unfold normAssemble
  rw [if_pos rfl, if_neg hne]

lemma normAssemble_false (tr : Bool) (out : List (List Char)) (hne : out ≠ []) :
    normAssemble false tr out
      = if tr && !endsSlash (joinSlash out)
        then joinSlash out ++ ['/'] else joinSlash out := by
  unfold normAssemble
  rw [if_neg (by simp), if_neg hne]

lemma NF_fixed (n : List Char) (h : NF n) : normalize_path n = n := by
  rcases h with h | h | h | h
  · subst h; decide
  · subst h; decide
  · -- rooted normal form
    obtain ⟨w, hne, hw, hcase⟩ := h
    have helems : ∀ c ∈ w, c ≠ [] ∧ sepFree c :=
      fun c hc => ⟨(hw c hc).1, (hw c hc).2.2.2⟩
    have hj : splitBy isSep (joinSlash w) = w :=
      splitBy_joinSlash w hne (fun c hc => (helems c hc).2)
    have hjne : joinSlash w ≠ [] :=
      joinSlash_ne_nil w hne (fun c hc => (helems c hc).1)
    have hnoslash : endsSlash (joinSlash w) = false :=
      joinSlash_not_endsSlash w hne helems
    have hend2 : endsSlash ('/' :: joinSlash w) = false := by
      simp only [endsSlash] at hnoslash ⊢
      have hx : ('/' :: joinSlash w) = ['/'] ++ joinSlash w := rfl
      rw [hx, List.getLast?_append_of_ne_nil ['/'] hjne]
      exact hnoslash
    rcases hcase with hcase | hcase
    · subst hcase
      have hroot : isRooted ('/' :: joinSlash w) = true := rfl
      have hfold2 : normComps true (splitBy isSep (joinSlash w)) = w := by
        unfold normComps
        rw [hj, foldl_stepR_good true w hw []]
        simp
      rw [normalize_path_def, hroot, if_pos rfl, List.tail_cons, hfold2,
        normAssemble_true _ _ hne, hend2]
      simp
    · subst hcase
      have hrw : ('/' :: joinSlash w) ++ ['/'] = '/' :: (joinSlash w ++ ['/']) := by
        simp
      rw [hrw]
      have hroot : isRooted ('/' :: (joinSlash w ++ ['/'])) = true := rfl
      have hfold3 : normComps true (splitBy isSep (joinSlash w ++ ['/'])) = w := by
        unfold normComps
        rw [splitBy_append_slash, hj, List.foldl_append,
          foldl_stepR_good true w hw []]
        simp only [List.foldl_cons, List.foldl_nil]
        rw [stepR_empty]
        simp
      have hend1 : endsSlash ('/' :: (joinSlash w ++ ['/'])) = true := by
        simp only [endsSlash]
        rw [show ('/' :: (joinSlash w ++ ['/'])) = ('/' :: joinSlash w) ++ ['/']
          from by simp, List.getLast?_concat]
        simp
      rw [normalize_path_def, hroot, if_pos rfl, List.tail_cons, hfold3,
        normAssemble_true _ _ hne, hend1, hend2]
      simp
  · -- unrooted normal form
    obtain ⟨k, w, hkw, hw, hcase⟩ := h
    set out := List.replicate k dotdot ++ w with hout
    have houtne : out ≠ [] := by
      intro hcon
      rw [hout] at hcon
      rcases List.append_eq_nil.mp hcon with ⟨h1, h2⟩
      rcases hkw with hkw | hkw
      · exact hkw (by simpa using h1)
      · exact hkw h2
    have helems : ∀ c ∈ out, c ≠ [] ∧ sepFree c := by
      intro c hc
      rw [hout] at hc
      rcases List.mem_append.mp hc with hc | hc
      · have hcd : c = dotdot := List.eq_of_mem_replicate hc
        subst hcd
        refine ⟨by simp [dotdot], ?_⟩
        intro ch hch
        simp only [dotdot] at hch
        fin_cases hch <;> decide
      · exact ⟨(hw c hc).1, (hw c hc).2.2.2⟩
    have hj : splitBy isSep (joinSlash out) = out :=
      splitBy_joinSlash out houtne (fun c hc => (helems c hc).2)
    have hjne : joinSlash out ≠ [] :=
      joinSlash_ne_nil out houtne (fun c hc => (helems c hc).1)
    have hfold : (splitBy isSep (joinSlash out)).foldl (stepR false) []
        = w.reverse ++ List.replicate k dotdot := by
      rw [hj, hout, List.foldl_append]
      have h0 : (List.replicate k dotdot).foldl (stepR false) []
          = List.replicate k dotdot := by
        have := foldl_stepR_dots k 0
        simpa using this
      rw [h0, foldl_stepR_good false w hw (List.replicate k dotdot)]
    have hnoslash : endsSlash (joinSlash out) = false :=
      joinSlash_not_endsSlash out houtne helems
    have hheadne : (joinSlash out).head? ≠ some '/' := by
      rcases hout2 : out with _ | ⟨c, rest⟩
      · exact absurd hout2 houtne
      · have hcmem : c ∈ out := by rw [hout2]; exact List.mem_cons_self c rest
        have hcne : c ≠ [] := (helems c hcmem).1
        rw [joinSlash_head c rest hcne]
        rcases hc2 : c with _ | ⟨a, t⟩
        · exact absurd hc2 hcne
        · simp only [List.head?_cons, ne_eq, Option.some.injEq]
          intro hcontra
          have hsf := (helems c hcmem).2
          have ha := hsf a (by rw [hc2]; exact List.mem_cons_self a t)
          rw [hcontra] at ha
          simp [isSep] at ha
    have hcompall : normComps false (splitBy isSep (joinSlash out)) = out := by
      unfold normComps
      rw [hfold, hout]
      simp
    rcases hcase with hcase | hcase
    · subst hcase
      have hroot : isRooted (joinSlash out) = false := by
        simp [isRooted, hheadne]
      rw [normalize_path_def, hroot, if_neg (by simp), hcompall,
        normAssemble_false _ _ houtne, hnoslash]
      simp
    · subst hcase
      have hheadne2 : (joinSlash out ++ ['/']).head? ≠ some '/' := by
        rcases hj2 : joinSlash out with _ | ⟨a, t⟩
        · exact absurd hj2 hjne
        · rw [hj2] at hheadne
          simpa using hheadne
      have hroot : isRooted (joinSlash out ++ ['/']) = false := by
        rcases hj2 : joinSlash out with _ | ⟨a, t⟩
        · exact absurd hj2 hjne
        · rw [hj2] at hheadne
          have ha : a ≠ '/' := by simpa using hheadne
          simp [isRooted, List.cons_append, ha]
      have hcompall2 : normComps false (splitBy isSep (joinSlash out ++ ['/']))
          = out := by
        unfold normComps
        rw [splitBy_append_slash, List.foldl_append, hfold]
        simp only [List.foldl_cons, List.foldl_nil]
        rw [stepR_empty, hout]
        simp
      have hend1 : endsSlash (joinSlash out ++ ['/']) = true := by
        simp only [endsSlash]
        rw [List.getLast?_concat]
        simp
      rw [normalize_path_def, hroot, if_neg (by simp), hcompall2,
        normAssemble_false _ _ houtne, hend1, hnoslash]
      simp

/-- C8 — `normalize(normalize(s)) == normalize(s)`: the path normalizer of
src/util.rs is idempotent on every input string. -/
theorem c8_normalize_idempotent (s : List Char) :
    normalize_path (normalize_path s) = normalize_path s :=
  NF_fixed (normalize_path s) (normalize_path_NF s)

/-! ## fs.rs — virtual-path classifier

`split_zip`, `split_virtual` and `vpath` (src/fs.rs lines 179-299).
Byte indices become character indices (the scanned delimiters `'/'`, the
`.zip` literal, the marker literals, hex and digit classes are all ASCII,
so the two index spaces coincide on the decisions taken). -/

/-- `usize::MAX`. -/
def USIZE_MAX : Nat := 2 ^ 64 - 1

/-- A wrapping `n - 1` on `usize`: the source decrements `base_path_len`
without a guard, so `0 - 1` wraps to `usize::MAX` (release semantics;
with debug assertions the subtraction panics instead). -/
def usub1 (n : Nat) : Nat := if n = 0 then USIZE_MAX else n - 1

/-- `isZipAt p i`: the bytes at `i ..` start with `".zip"`
(an occurrence the `ZIP_RE` regex can report at index `i`). -/
def isZipAt (p : List Char) (i : Nat) : Bool :=
  decide ((p.drop i).take 4 = cs ".zip")

/-- `ZIP_RE.find_at`, written with an explicit structural fuel so that the
scan computes by kernel reduction.  The fuel only needs to cover the number
of remaining loop iterations; `findZip` supplies `p.length + 1`, which
always does. -/
def findZipAux (p : List Char) : Nat → Nat → Option Nat
  | 0, _ => none
  | fuel + 1, off =>
    if off + 4 ≤ p.length then
      if isZipAt p off then some off else findZipAux p fuel (off + 1)
    else none

/-- `ZIP_RE.find_at`: index of the first `".zip"` occurrence at or after
`off`, if any. -/
def findZip (p : List Char) (off : Nat) : Option Nat :=
  findZipAux p (p.length + 1) off

lemma findZipAux_bounds (p : List Char) (fuel off idx : Nat)
    (h : findZipAux p fuel off = some idx) :
    off ≤ idx ∧ idx + 4 ≤ p.length ∧ isZipAt p idx = true := by
  induction fuel generalizing off with
  | zero => exact absurd h (by simp [findZipAux])
  | succ n ih =>
    unfold findZipAux at h
    by_cases hc : off + 4 ≤ p.length
    · rw [if_pos hc] at h
      by_cases hz : isZipAt p off
      · rw [if_pos hz] at h
        injection h with e
        subst e
        exact ⟨le_refl _, hc, hz⟩
      · rw [if_neg hz] at h
        have := ih (off + 1) h
        exact ⟨by omega, this.2.1, this.2.2⟩
    · rw [if_neg hc] at h
      exact absurd h (by simp)

lemma findZip_bounds (p : List Char) (off idx : Nat)
    (h : findZip p off = some idx) :
    off ≤ idx ∧ idx + 4 ≤ p.length ∧ isZipAt p idx = true :=
  findZipAux_bounds p (p.length + 1) off idx h

/-- The `while` loop of `split_zip` (fueled like `findZipAux`; each
iteration advances the search offset by at least 4, so `p.length + 1` fuel
always suffices): the first `".zip"` occurrence that is not at index 0, not
preceded by `'/'`, and followed by `'/'`; returns `next_char_idx` (the
index right after `".zip"`). -/
def splitZipAux (p : List Char) : Nat → Nat → Option Nat
  | 0, _ => none
  | fuel + 1, off =>
    match findZip p off with
    | none => none
    | some idx =>
      if idx = 0 ∨ p.get? (idx - 1) = some '/' ∨ p.get? (idx + 4) ≠ some '/' then
        splitZipAux p fuel (idx + 4)
      else
        some (idx + 4)

/-- The accepted-match scan of `split_zip`. -/
def splitZipLoop (p : List Char) (off : Nat) : Option Nat :=
  splitZipAux p (p.length + 1) off

/-- `split_zip` (src/fs.rs lines 179-206). -/
def split_zip (p : List Char) : List Char × Option (List Char) :=
  match splitZipLoop p 0 with
  | some nci => (p.take nci, some (p.drop (nci + 1)))
  | none => (p, none)

/-- `[a-f0-9]`. -/
def isHexCh (c : Char) : Bool := ('a' ≤ c && c ≤ 'f') || ('0' ≤ c && c ≤ '9')

/-- `[0-9]`. -/
def isDigitCh (c : Char) : Bool := '0' ≤ c && c ≤ '9'

/-- Whether a (slash-free) segment matches `(?:[^/]+)-[a-f0-9]+` in full:
some split `a ++ "-" ++ h` with `a` nonempty slash-free and `h` nonempty
hexadecimal. -/
def hashSegOk (seg : List Char) : Bool :=
  (List.range seg.length).any fun i =>
    decide (seg.get? i = some '-') && decide (1 ≤ i) &&
    decide (i + 1 < seg.length) &&
    ((seg.take i).all fun c => !(c = '/')) &&
    ((seg.drop (i + 1)).all isHexCh)

/-- `"$$virtual/"`. -/
def dollarLit : List Char := cs "$$virtual/"

/-- `"__virtual__/"`. -/
def virtualLit : List Char := cs "__virtual__/"

/-- The numeric value of a digit run (`str::parse::<usize>` modulo the
overflow check, which `split_virtual` applies separately). -/
def digitsToNat (l : List Char) : Nat :=
  l.foldl (fun a c => a * 10 + (c.toNat - 48)) 0

/-- Capture group 1 of `VIRTUAL_RE` matched at index `j`:
`(?:\$\$virtual|__virtual__)/<seg>-<hex>/<digits>/`.  Returns the length of
the group and the numeric value of the depth digits. -/
def virtualMatchAt (p : List Char) (j : Nat) : Option (Nat × Nat) :=
  let t := p.drop j
  let litLen : Option Nat :=
    if dollarLit.isPrefixOf t then some dollarLit.length
    else if virtualLit.isPrefixOf t then some virtualLit.length
    else none
  match litLen with
  | none => none
  | some ll =>
    let rest := t.drop ll
    let seg := rest.takeWhile fun c => !(c = '/')
    if seg.length < rest.length && hashSegOk seg then
      let rest2 := rest.drop (seg.length + 1)
      let digits := rest2.takeWhile isDigitCh
      if !(digits.length = 0) && decide (rest2.get? digits.length = some '/') then
        some (ll + seg.length + 1 + digits.length + 1, digitsToNat digits)
      else none
    else none

/-- One attempt of `VIRTUAL_RE` at overall start `i`: the `(?:^|/)` anchor
(`^` only at 0, else a literal `'/'`), then group 1; returns
`(group-1 start, group-1 length, depth digits value)`. -/
def virtualBranchAt (p : List Char) (i : Nat) : Option (Nat × Nat × Nat) :=
  if i = 0 then
    match virtualMatchAt p 0 with
    | some (ml, d) => some (0, ml, d)
    | none =>
      if p.get? 0 = some '/' then
        match virtualMatchAt p 1 with
        | some (ml, d) => some (1, ml, d)
        | none => none
      else none
  else
    if p.get? i = some '/' then
      match virtualMatchAt p (i + 1) with
      | some (ml, d) => some (i + 1, ml, d)
      | none => none
    else none

/-- Leftmost match of `VIRTUAL_RE` (fueled; `p.length + 1` always covers
the scan): the engine tries each start position in increasing order. -/
def findVirtualAux (p : List Char) : Nat → Nat → Option (Nat × Nat × Nat)
  | 0, _ => none
  | fuel + 1, i =>
    if i < p.length then
      match virtualBranchAt p i with
      | some r => some r
      | none => findVirtualAux p fuel (i + 1)
    else none

/-- Leftmost match of `VIRTUAL_RE`. -/
def findVirtual (p : List Char) (i : Nat) : Option (Nat × Nat × Nat) :=
  findVirtualAux p (p.length + 1) i

/-- `split_virtual` (src/fs.rs lines 208-225): `(base_path_len, None)` when
no (parsable) virtual marker exists, else
`(main.start, Some (main length, depth))`.  A depth that overflows `usize`
fails `str::parse` and yields the no-marker result. -/
def split_virtual (p : List Char) : Nat × Option (Nat × Nat) :=
  match findVirtual p 0 with
  | some (s, ml, dval) =>
    if dval ≤ USIZE_MAX then (s, some (ml, dval)) else (p.length, none)
  | none => (p.length, none)

/-- The inner `while let Some(c) = archive.get(base_path_len - 1)` loop of
`vpath` (fueled on `bpl`, which strictly decreases each iteration):
consume one whole path segment.  When `bpl = 0` the wrapped index
`usize::MAX` is out of range for any real path, so the lookup misses and
the loop exits (the `bpl = 0` guard encodes exactly that). -/
def innerLoopAux (archive : List Char) : Nat → Nat → Nat → Nat × Nat
  | 0, bpl, vlen => (bpl, vlen)
  | fuel + 1, bpl, vlen =>
    if bpl = 0 then (bpl, vlen)
    else
      match archive.get? (bpl - 1) with
      | none => (bpl, vlen)
      | some c =>
        if c = '/' then (bpl, vlen)
        else innerLoopAux archive fuel (bpl - 1) (vlen + 1)

/-- The inner segment-consumption loop of `vpath`. -/
def innerLoop (archive : List Char) (bpl vlen : Nat) : Nat × Nat :=
  innerLoopAux archive bpl bpl vlen

/-- The outer `for _ in 0..parent_depth` loop of `vpath` (src/fs.rs lines
245-261): stop at `base_path_len == 1`, else wrapping-decrement and consume
a segment. -/
def outerLoop (archive : List Char) : Nat → Nat → Nat → Nat × Nat
  | 0, bpl, vlen => (bpl, vlen)
  | d + 1, bpl, vlen =>
    if bpl = 1 then (bpl, vlen)
    else
      let r := innerLoop archive (usub1 bpl) (vlen + 1)
      outerLoop archive d r.1 r.2

/-- `ZipInfo` (src/fs.rs lines 14-20). -/
structure ZipInfo where
  base_path : List Char
  virtual_segments : Option (List Char × List Char)
  zip_path : List Char
deriving DecidableEq, Repr

/-- `VirtualInfo` (src/fs.rs lines 22-27). -/
structure VirtualInfo where
  base_path : List Char
  virtual_segments : List Char × List Char
deriving DecidableEq, Repr

/-- `VPath` (src/fs.rs lines 48-54). -/
inductive VPath where
  | zip (info : ZipInfo)
  | virt (info : VirtualInfo)
  | native (p : List Char)
deriving DecidableEq, Repr

/-- `vpath` (src/fs.rs lines 227-299), i.e. `VPath::from`.  The only error
the function can produce is `"Invalid virtual back-reference"`; UTF-8
re-validation of the slices cannot fail because every cut point sits at an
ASCII `'/'` boundary of a valid string. -/
def vpath (p : List Char) : Except String VPath :=
  let pStr := normalize_path p
  let zsplit := split_zip pStr
  let archive := zsplit.1
  let vsplit := split_virtual archive
  match vsplit.2 with
  | some (vlen0, depth) =>
    let r := outerLoop archive depth vsplit.1 vlen0
    let bpl := r.1
    let vlen := r.2
    match archive.get? (usub1 bpl) with
    | some c =>
      if c = '/' then
        let base0 := archive.take bpl
        let base := if base0.length > 1 then base0.take (base0.length - 1)
          else base0
        let segs := (archive.drop bpl, archive.drop (bpl + vlen))
        match zsplit.2 with
        | some zp => .ok (.zip ⟨base, some segs, zp⟩)
        | none => .ok (.virt ⟨base, segs⟩)
      else .error "Invalid virtual back-reference"
    | none => .error "Invalid virtual back-reference"
  | none =>
    match zsplit.2 with
    | some zp => .ok (.zip ⟨archive, none, zp⟩)
    | none => .ok (.native pStr)

instance {ε α : Type} [DecidableEq ε] [DecidableEq α] :
    DecidableEq (Except ε α) := fun a b =>
  match a, b with
  | .ok x, .ok y =>
    if h : x = y then .isTrue (by rw [h]) else .isFalse (by simp [h])
  | .error x, .error y =>
    if h : x = y then .isTrue (by rw [h]) else .isFalse (by simp [h])
  | .ok _, .error _ => .isFalse (by simp)
  | .error _, .ok _ => .isFalse (by simp)

lemma splitZipAux_sound (p : List Char) (fuel off nci : Nat)
    (h : splitZipAux p fuel off = some nci) :
    ∃ idx, nci = idx + 4 ∧ isZipAt p idx = true ∧ idx + 4 ≤ p.length ∧
      ¬idx = 0 ∧ ¬p.get? (idx - 1) = some '/' ∧ p.get? (idx + 4) = some '/' := by
  induction fuel generalizing off with
  | zero => exact absurd h (by simp [splitZipAux])
  | succ n ih =>
    unfold splitZipAux at h
    rcases hf : findZip p off with _ | idx
    · simp only [hf] at h
      exact Option.noConfusion h
    · simp only [hf] at h
      by_cases hcond : idx = 0 ∨ p.get? (idx - 1) = some '/' ∨
          p.get? (idx + 4) ≠ some '/'
      · rw [if_pos hcond] at h
        exact ih (idx + 4) h
      · rw [if_neg hcond] at h
        injection h with e
        push_neg at hcond
        obtain ⟨_, h2, h3⟩ := findZip_bounds p off idx hf
        exact ⟨idx, e.symm, h3, h2, hcond.1, hcond.2.1, hcond.2.2⟩

lemma split_zip_none (p : List Char) (h : (split_zip p).2 = none) :
    (split_zip p).1 = p := by
  unfold split_zip at h ⊢
  rcases hl : splitZipLoop p 0 with _ | nci
  · simp only [hl]
  · simp only [hl] at h
    exact Option.noConfusion h

lemma split_zip_some (p zp : List Char) (h : (split_zip p).2 = some zp) :
    ∃ idx, (split_zip p).1 = p.take (idx + 4) ∧ zp = p.drop (idx + 5) ∧
      isZipAt p idx = true ∧ idx + 4 ≤ p.length ∧ ¬idx = 0 ∧
      p.get? (idx + 4) = some '/' := by
  unfold split_zip at h ⊢
  rcases hl : splitZipLoop p 0 with _ | nci
  · simp only [hl] at h
    exact Option.noConfusion h
  · simp only [hl] at h
    obtain ⟨idx, hidx, hz, hle, h0, _, hsl⟩ :=
      splitZipAux_sound p (p.length + 1) 0 nci hl
    subst hidx
    simp only [hl]
    injection h with e
    exact ⟨idx, rfl, e.symm, hz, hle, h0, hsl⟩

/-- `take (idx + 4)` of a string with `".zip"` at `idx` ends in `".zip"`. -/
lemma take_ends_zip (p : List Char) (idx : Nat) (hz : isZipAt p idx = true)
    (hle : idx + 4 ≤ p.length) :
    ∃ t, p.take (idx + 4) = t ++ cs ".zip" := by
  refine ⟨p.take idx, ?_⟩
  have h4 : (p.drop idx).take 4 = cs ".zip" := by
    simpa [isZipAt] using hz
  rw [← h4]
  exact List.take_add p idx 4

instance {ε α : Type} [DecidableEq ε] [DecidableEq α] :
    DecidableEq (Except ε α) := fun a b =>
  match a, b with
  | .ok x, .ok y =>
    if h : x = y then .isTrue (by rw [h]) else .isFalse (by simp [h])
  | .error x, .error y =>
    if h : x = y then .isTrue (by rw [h]) else .isFalse (by simp [h])
  | .ok _, .error _ => .isFalse (by simp)
  | .error _, .ok _ => .isFalse (by simp)

-- Sanity checks mirroring `test_path_to_pnp` cases of src/fs.rs.
theorem vpath_case_ext : vpath (cs ".zip") = .ok (.native (cs ".zip")) := by
  decide
theorem vpath_case_noslash :
    vpath (cs "foo.zip") = .ok (.native (cs "foo.zip")) := by decide
theorem vpath_case_zip :
    vpath (cs "foo.zip/bar")
      = .ok (.zip ⟨cs "foo.zip", none, cs "bar"⟩) := by decide
theorem vpath_case_virt0 :
    vpath (cs "./a/b/__virtual__/foo-abcdef/0/c/d")
      = .ok (.virt ⟨cs "a/b", (cs "__virtual__/foo-abcdef/0/c/d", cs "c/d")⟩) := by
  decide
theorem vpath_case_virt1 :
    vpath (cs "./a/b/__virtual__/foo-abcdef/1/c/d")
      = .ok (.virt ⟨cs "a", (cs "b/__virtual__/foo-abcdef/1/c/d", cs "c/d")⟩) := by
  decide
theorem vpath_case_virt2zip :
    vpath (cs "/a/b/__virtual__/foo-abcdef/2/c/foo.zip/bar")
      = .ok (.zip ⟨cs "/",
          some (cs "a/b/__virtual__/foo-abcdef/2/c/foo.zip", cs "c/foo.zip"),
          cs "bar"⟩) := by decide
theorem vpath_case_zipzip :
    vpath (cs "./a/b/c/foo.zip-bar.zip/bar/baz/qux.zip")
      = .ok (.zip ⟨cs "a/b/c/foo.zip-bar.zip", none, cs "bar/baz/qux.zip"⟩) := by
  decide

/-! ### Claim C1 — totality and back-reference clamping of the classifier -/

lemma vpath_error_msg (p : List Char) (e : String) (h : vpath p = .error e) :
    e = "Invalid virtual back-reference" := by
  simp only [vpath] at h
  split at h
  · split at h
    · split at h
      · split at h <;> exact absurd h (by simp)
      · injection h with h'
        exact h'.symm
    · injection h with h'
      exact h'.symm
  · split at h <;> exact absurd h (by simp)

/-- C1, counterexample.  On `"a/__virtual__/foo-abcdef/2/c"` the marker is
valid (depth 2) and one segment precedes it; the claim says the consumption
stops once `base_path` is reduced to the root (here: the empty relative
root, counter value 0) without ever underflowing, and that the error is
reserved for inconsistent (non-root, non-boundary) states.  The code
instead wraps the counter past zero to `usize::MAX` (an underflow; a panic
under debug assertions) and returns the error although the base had been
reduced exactly to the root. -/
theorem c1_counterexample :
    split_virtual (cs "a/__virtual__/foo-abcdef/2/c") = (2, some (25, 2)) ∧
    (outerLoop (cs "a/__virtual__/foo-abcdef/2/c") 2 2 25).1 = USIZE_MAX ∧
    vpath (cs "a/__virtual__/foo-abcdef/2/c")
      = .error "Invalid virtual back-reference" := by
  refine ⟨by decide, by decide, by decide⟩

/-- C1, amended.  In release semantics (`usize` subtraction wraps) the
classifier is total: for every input it returns either a `VPath` or the
`"Invalid virtual back-reference"` error — no other failure exists.  The
back-reference loop, however, stops only at the `"/"` root of absolute
paths; on relative paths whose depth meets the start of the string the
length counter wraps below zero (`c1_counterexample`), which surfaces as
that same error (and as an arithmetic-underflow panic in debug builds). -/
theorem c1_amended_total (p : List Char) :
    (∃ v, vpath p = .ok v) ∨
    vpath p = .error "Invalid virtual back-reference" := by
  cases h : vpath p with
  | ok v => exact Or.inl ⟨v, rfl⟩
  | error e =>
    have he := vpath_error_msg p e h
    subst he
    exact Or.inr rfl

/-! ### Claim C2 — shape of `Zip` classifications -/

/-- C2, counterexample.  `"a/__virtual__/foo-abcdef/0/c/foo.zip/"` yields a
`Zip` whose `base_path` (`"a"`) does not end in `".zip"` and whose
`zip_path` is empty — the classification does not degrade to a base path
without a zip component when the suffix after `".zip/"` is empty.
Moreover an empty `zip_path` is only an implication, not a biconditional,
on the normalized input ending in `".zip/"`: `"x.zip/foo.zip/"` normalizes
to a string ending in `".zip/"` yet the scan accepts the first `".zip/"`
boundary and classifies it with the non-empty `zip_path` `"foo.zip/"`. -/
theorem c2_counterexample :
    vpath (cs "a/__virtual__/foo-abcdef/0/c/foo.zip/")
      = .ok (.zip ⟨cs "a",
          some (cs "__virtual__/foo-abcdef/0/c/foo.zip", cs "c/foo.zip"),
          cs ""⟩) ∧
    ¬(cs ".zip" <:+ cs "a") ∧ (cs "" = ([] : List Char)) ∧
    vpath (cs "x.zip/foo.zip/")
      = .ok (.zip ⟨cs "x.zip", none, cs "foo.zip/"⟩) ∧
    cs ".zip/" <:+ normalize_path (cs "x.zip/foo.zip/") ∧
    ¬(cs "foo.zip/" = ([] : List Char)) := by
  refine ⟨by decide, by decide, rfl, by decide, by decide, by decide⟩

/-- C2, amended.  Whenever the classifier returns a `Zip`: if it carries no
virtual segments its `base_path` ends in `".zip"`; and if its `zip_path`
is empty then the input's normalization ends in `".zip/"` — such inputs
still produce a `Zip` (with empty `zip_path`) rather than degrading to a
zip-free classification.  The converse of the emptiness implication fails
(see the counterexample above): a normalized input ending in `".zip/"`
may still carry a non-empty `zip_path` when an earlier `".zip/"` boundary
is accepted first. -/
theorem c2_amended (p : List Char) (info : ZipInfo)
    (h : vpath p = .ok (.zip info)) :
    (info.virtual_segments = none → cs ".zip" <:+ info.base_path) ∧
    (info.zip_path = [] → cs ".zip/" <:+ normalize_path p) := by
  simp only [vpath] at h
  split at h
  · -- virtual marker present
    split at h
    · split at h
      · split at h
        · -- Zip with virtual segments
          injection h with h'
          injection h' with h''
          subst h''
          constructor
          · intro hnone
            simp at hnone
          · intro hzp
            rename_i heqv c hc hsl zp heqz
            obtain ⟨idx, _, hdrop, hz, hle, _, hslash⟩ :=
              split_zip_some (normalize_path p) zp heqz
            rw [hdrop] at hzp
            have hlen : (normalize_path p).length = idx + 5 := by
              have h1 : (normalize_path p).length ≤ idx + 5 := by
                have := List.drop_eq_nil_iff.mp hzp
                omega
              have h2 : idx + 4 < (normalize_path p).length := by
                obtain ⟨hlt, _⟩ := List.get?_eq_some.mp hslash
                exact hlt
              omega
            obtain ⟨t, ht⟩ := take_ends_zip (normalize_path p) idx hz hle
            refine ⟨t, ?_⟩
            have hsplit : normalize_path p
                = (normalize_path p).take (idx + 4)
                  ++ (normalize_path p).drop (idx + 4) := by
              rw [List.take_append_drop]
            have hdrop4 : (normalize_path p).drop (idx + 4) = ['/'] := by
              have hlt : idx + 4 < (normalize_path p).length := by omega
              rw [List.drop_eq_getElem_cons hlt]
              have hget : (normalize_path p)[idx + 4] = '/' := by
                have := List.get?_eq_some.mp hslash
                obtain ⟨hh, hv⟩ := this
                simpa [List.get?_eq_getElem?, List.getElem?_eq_getElem hh]
                  using hslash
              rw [hget]
              have : (normalize_path p).drop (idx + 4 + 1) = [] := by
                apply List.drop_eq_nil_iff.mpr
                omega
              rw [this]
            rw [hsplit, ht, hdrop4]
            simp [cs]
        · -- Virtual result: contradicts the Zip hypothesis
          exact absurd h (by simp)
      · exact absurd h (by simp)
    · exact absurd h (by simp)
  · -- no virtual marker
    split at h
    · -- plain Zip
      injection h with h'
      injection h' with h''
      subst h''
      rename_i heqv zp heqz
      obtain ⟨idx, htake, hdrop, hz, hle, _, hslash⟩ :=
        split_zip_some (normalize_path p) zp heqz
      constructor
      · intro _
        obtain ⟨t, ht⟩ := take_ends_zip (normalize_path p) idx hz hle
        exact ⟨t, by rw [htake, ht]⟩
      · intro hzp
        rw [hdrop] at hzp
        have h2 : idx + 4 < (normalize_path p).length := by
          obtain ⟨hlt, _⟩ := List.get?_eq_some.mp hslash
          exact hlt
        have hlen : (normalize_path p).length = idx + 5 := by
          have h1 : (normalize_path p).length ≤ idx + 5 := by
            have := List.drop_eq_nil_iff.mp hzp
            omega
          omega
        obtain ⟨t, ht⟩ := take_ends_zip (normalize_path p) idx hz hle
        refine ⟨t, ?_⟩
        have hsplit : normalize_path p
            = (normalize_path p).take (idx + 4)
              ++ (normalize_path p).drop (idx + 4) := by
          rw [List.take_append_drop]
        have hdrop4 : (normalize_path p).drop (idx + 4) = ['/'] := by
          rw [List.drop_eq_getElem_cons h2]
          have hget : (normalize_path p)[idx + 4] = '/' := by
            have := List.get?_eq_some.mp hslash
            obtain ⟨hh, hv⟩ := this
            simpa [List.get?_eq_getElem?, List.getElem?_eq_getElem hh]
              using hslash
          rw [hget]
          have : (normalize_path p).drop (idx + 4 + 1) = [] := by
            apply List.drop_eq_nil_iff.mpr
            omega
          rw [this]
        rw [hsplit, ht, hdrop4]
        simp [cs]
    · exact absurd h (by simp)

/-- C2 witness: the amended statement at `"foo.zip/bar"`. -/
theorem c2_amended_witness :
    (cs ".zip" <:+ cs "foo.zip") ∧
    ((cs "bar" : List Char) = [] → cs ".zip/" <:+ normalize_path (cs "foo.zip/bar")) := by
  have h := c2_amended (cs "foo.zip/bar") ⟨cs "foo.zip", none, cs "bar"⟩ (by decide)
  exact ⟨h.1 rfl, h.2⟩

/-! ### Claim C7 — reassembling a `Virtual` classification -/

/-- A normalized path never starts with two slashes. -/
lemma NF_no_doubleslash (n : List Char) (h : NF n)
    (h0 : n.get? 0 = some '/') : n.get? 1 ≠ some '/' := by
  have headGood : ∀ (w : List (List Char)), w ≠ [] → (∀ c ∈ w, Good c) →
      (joinSlash w).head? ≠ some '/' := by
    intro w hne hw
    rcases hw2 : w with _ | ⟨c, rest⟩
    · exact absurd hw2 hne
    · have hcg : Good c := hw c (by rw [hw2]; exact List.mem_cons_self c rest)
      rw [joinSlash_head c rest hcg.1]
      rcases hc2 : c with _ | ⟨a, t⟩
      · exact absurd hc2 hcg.1
      · simp only [List.head?_cons, ne_eq, Option.some.injEq]
        intro hcontra
        have := hcg.2.2.2 a (by rw [hc2]; exact List.mem_cons_self a t)
        rw [hcontra] at this
        simp [isSep] at this
  rcases h with h | h | h | h
  · subst h; simp
  · subst h; simp at h0
  · obtain ⟨w, hne, hw, hcase⟩ := h
    have hjh := headGood w hne hw
    have hjne : joinSlash w ≠ [] :=
      joinSlash_ne_nil w hne (fun c hc => (hw c hc).1)
    rcases hcase with hcase | hcase
    · subst hcase
      simp only [List.get?_cons_succ, List.get?_eq_getElem?]
      rcases hj2 : joinSlash w with _ | ⟨a, t⟩
      · exact absurd hj2 hjne
      · rw [hj2] at hjh
        simp only [List.head?_cons] at hjh
        simpa using hjh
    · subst hcase
      rcases hj2 : joinSlash w with _ | ⟨a, t⟩
      · exact absurd hj2 hjne
      · rw [hj2] at hjh
        simp only [List.head?_cons] at hjh
        simp only [List.cons_append, List.get?_cons_succ]
        simpa using hjh
  · obtain ⟨k, w, hkw, hw, hcase⟩ := h
    -- unrooted: the very first character is not a slash, contradiction
    exfalso
    set out := List.replicate k dotdot ++ w with hout
    have houtne : out ≠ [] := by
      intro hcon
      rw [hout] at hcon
      rcases List.append_eq_nil.mp hcon with ⟨h1, h2⟩
      rcases hkw with hkw | hkw
      · exact hkw (by simpa using h1)
      · exact hkw h2
    have helems : ∀ c ∈ out, c ≠ [] ∧ sepFree c := by
      intro c hc
      rw [hout] at hc
      rcases List.mem_append.mp hc with hc | hc
      · have hcd : c = dotdot := List.eq_of_mem_replicate hc
        subst hcd
        refine ⟨by simp [dotdot], ?_⟩
        intro ch hch
        simp only [dotdot] at hch
        fin_cases hch <;> decide
      · exact ⟨(hw c hc).1, (hw c hc).2.2.2⟩
    have hjne : joinSlash out ≠ [] :=
      joinSlash_ne_nil out houtne (fun c hc => (helems c hc).1)
    have hheadne : (joinSlash out).head? ≠ some '/' := by
      rcases hout2 : out with _ | ⟨c, rest⟩
      · exact absurd hout2 houtne
      · have hcmem : c ∈ out := by rw [hout2]; exact List.mem_cons_self c rest
        have hcne : c ≠ [] := (helems c hcmem).1
        rw [joinSlash_head c rest hcne]
        rcases hc2 : c with _ | ⟨a, t⟩
        · exact absurd hc2 hcne
        · simp only [List.head?_cons, ne_eq, Option.some.injEq]
          intro hcontra
          have hsf := (helems c hcmem).2
          have ha := hsf a (by rw [hc2]; exact List.mem_cons_self a t)
          rw [hcontra] at ha
          simp [isSep] at ha
    rcases hcase with hcase | hcase
    · subst hcase
      rcases hj2 : joinSlash out with _ | ⟨a, t⟩
      · exact absurd hj2 hjne
      · rw [hj2] at hheadne h0
        simp only [List.head?_cons] at hheadne
        simp only [List.get?_cons_zero] at h0
        exact hheadne h0
    · subst hcase
      rcases hj2 : joinSlash out with _ | ⟨a, t⟩
      · exact absurd hj2 hjne
      · rw [hj2] at hheadne h0
        simp only [List.head?_cons] at hheadne
        simp only [List.cons_append, List.get?_cons_zero] at h0
        exact hheadne h0

/-- The reassembly step of `vpath` in the `Virtual` case: with the final
`base_path_len` at a `'/'` boundary, trimming and re-joining recovers the
archive string. -/
lemma vpath_virt_reassemble (A : List Char) (B : Nat)
    (hnf : NF A) (hlen : A.length <= USIZE_MAX)
    (hget : A.get? (usub1 B) = some '/') :
    (if (if (A.take B).length > 1
          then (A.take B).take ((A.take B).length - 1) else A.take B) = cs "/"
     then (if (A.take B).length > 1
          then (A.take B).take ((A.take B).length - 1) else A.take B)
        ++ A.drop B
     else (if (A.take B).length > 1
          then (A.take B).take ((A.take B).length - 1) else A.take B)
        ++ '/' :: A.drop B) = A := by
  have hB0 : B ≠ 0 := by
    intro hB
    subst hB
    obtain ⟨hlt, _⟩ := List.get?_eq_some.mp hget
    have hu : usub1 0 = USIZE_MAX := rfl
    rw [hu] at hlt
    omega
  have hu2 : usub1 B = B - 1 := by
    unfold usub1
    rw [if_neg hB0]
  rw [hu2] at hget
  obtain ⟨hlt, _⟩ := List.get?_eq_some.mp hget
  have hBle : B ≤ A.length := by omega
  have htlen : (A.take B).length = B := by
    rw [List.length_take]
    omega
  have hg0cons : ∀ (a : Char) (t : List Char), A = a :: t →
      B = 1 → a = '/' := by
    intro a t hA hB1
    subst hB1
    rw [hA] at hget
    simpa using hget
  by_cases hB1 : B = 1
  · subst hB1
    have hinner : (if (A.take 1).length > 1
        then (A.take 1).take ((A.take 1).length - 1) else A.take 1)
        = A.take 1 := by
      rw [htlen]
      simp
    rw [hinner]
    cases A with
    | nil => simp at hget
    | cons a t =>
      have ha : a = '/' := hg0cons a t rfl rfl
      subst ha
      rw [show ('/' :: t).take 1 = ['/'] from rfl, if_pos (by decide)]
      rfl
  · have hB2 : 1 < B := by omega
    have hinner : (if (A.take B).length > 1
        then (A.take B).take ((A.take B).length - 1) else A.take B)
        = A.take (B - 1) := by
      rw [htlen, if_pos hB2, List.take_take]
      congr 1
      omega
    rw [hinner]
    have hbase_len : (A.take (B - 1)).length = B - 1 := by
      rw [List.length_take]
      omega
    have hnotroot : ¬ A.take (B - 1) = cs "/" := by
      intro hcon
      have hcs : cs "/" = ['/'] := rfl
      rw [hcs] at hcon
      have hlen1 : (A.take (B - 1)).length = 1 := by rw [hcon]; rfl
      have hB1eq : B - 1 = 1 := hbase_len.symm.trans hlen1
      have hBeq : B = 2 := by omega
      subst hBeq
      have h0 : A.get? 0 = some '/' := by
        cases A with
        | nil => simp at hcon
        | cons a t =>
          rw [show (a :: t).take (2 - 1) = [a] from rfl] at hcon
          injection hcon with e _
          simp [e]
      exact NF_no_doubleslash A hnf h0 (by simpa using hget)
    rw [if_neg hnotroot]
    have hdrop : A.drop (B - 1) = '/' :: A.drop B := by
      rw [List.drop_eq_getElem_cons hlt]
      have hg : A[B - 1] = '/' := by
        obtain ⟨hh, hv⟩ := List.get?_eq_some.mp hget
        simpa [List.get?_eq_getElem?, List.getElem?_eq_getElem hh] using hget
      rw [hg]
      have hb1 : B - 1 + 1 = B := by omega
      rw [hb1]
    calc A.take (B - 1) ++ '/' :: A.drop B
        = A.take (B - 1) ++ A.drop (B - 1) := by rw [hdrop]
      _ = A := List.take_append_drop _ _

/-- C7, counterexample.  From `"/__virtual__/foo-abcdef/0/c/d"` the
classifier produces `Virtual { base_path = "/", full = "__virtual__/…" }`,
and `base_path ++ "/" ++ full` is `"//__virtual__/…"`, which is not the
normalized input — the claimed concatenation identity fails exactly when
`base_path` is the root `"/"`. -/
theorem c7_counterexample :
    vpath (cs "/__virtual__/foo-abcdef/0/c/d")
      = .ok (.virt ⟨cs "/", (cs "__virtual__/foo-abcdef/0/c/d", cs "c/d")⟩) ∧
    cs "/" ++ '/' :: cs "__virtual__/foo-abcdef/0/c/d"
      ≠ normalize_path (cs "/__virtual__/foo-abcdef/0/c/d") := by
  refine ⟨by decide, by decide⟩

/-- C7, amended.  For every `Virtual { base_path, (full, _) }` produced
from `p` (any real path: length below `usize::MAX`), the normalized input
is recovered as `base_path ++ "/" ++ full` when `base_path ≠ "/"`, and as
`base_path ++ full` when `base_path = "/"` (no separator is inserted after
the root, which already ends in one). -/
theorem c7_amended (p : List Char) (info : VirtualInfo)
    (hlen : (normalize_path p).length ≤ USIZE_MAX)
    (h : vpath p = .ok (.virt info)) :
    (if info.base_path = cs "/" then info.base_path ++ info.virtual_segments.1
     else info.base_path ++ '/' :: info.virtual_segments.1)
      = normalize_path p := by
  simp only [vpath] at h
  split at h
  · split at h
    · split at h
      · split at h
        · exact absurd h (by simp)
        · -- the Virtual leaf
          rename_i heqv c hget hsl zp heqz
          injection h with h'
          injection h' with h''
          subst h''
          simp only
          have harch : (split_zip (normalize_path p)).1 = normalize_path p :=
            split_zip_none (normalize_path p) heqz
          rw [harch] at hget ⊢
          subst hsl
          exact vpath_virt_reassemble (normalize_path p) _
            (normalize_path_NF p) hlen hget
      · exact absurd h (by simp)
    · exact absurd h (by simp)
  · split at h <;> exact absurd h (by simp)

/-- C7 witness: the amended statement at
`"./a/b/__virtual__/foo-abcdef/1/c/d"`. -/
theorem c7_amended_witness :
    (if cs "a" = cs "/" then cs "a" ++ cs "b/__virtual__/foo-abcdef/1/c/d"
     else cs "a" ++ '/' :: cs "b/__virtual__/foo-abcdef/1/c/d")
      = normalize_path (cs "./a/b/__virtual__/foo-abcdef/1/c/d") :=
  c7_amended (cs "./a/b/__virtual__/foo-abcdef/1/c/d")
    ⟨cs "a", (cs "b/__virtual__/foo-abcdef/1/c/d", cs "c/d")⟩
    (by decide) (by decide)

/-! ## zip.rs — central-directory parser and archive index

Archives are byte lists (`List Nat`, each element < 256).  Multi-byte reads
are little-endian like the `byteorder` calls in the source. -/

/-- `Compression` (src/zip.rs lines 9-13). -/
inductive Compression where
  | uncompressed
  | deflate
deriving DecidableEq, Repr

/-- `Entry` (src/zip.rs lines 15-20). -/
structure Entry where
  compression : Compression
  offset : Nat
  size : Nat
deriving DecidableEq, Repr

/-- A failure of `Zip::new`: either a returned `Err` or a process panic
(the `unwrap` on the unsupported-compression arm). -/
inductive ZErr where
  | failure (msg : String)
  | panicked (msg : String)
deriving DecidableEq, Repr

/-- `read_u16::<LittleEndian>` at a cursor position: value and new
position, or `None` on end-of-input (the `byteorder` EOF error). -/
def readU16 (data : List Nat) (pos : Nat) : Option (Nat × Nat) :=
  match data.get? pos, data.get? (pos + 1) with
  | some a, some b => some (a + b * 256, pos + 2)
  | _, _ => none

/-- `read_u32::<LittleEndian>`. -/
def readU32 (data : List Nat) (pos : Nat) : Option (Nat × Nat) :=
  match data.get? pos, data.get? (pos + 1), data.get? (pos + 2),
      data.get? (pos + 3) with
  | some a, some b, some c, some d =>
    some (a + b * 256 + c * 65536 + d * 16777216, pos + 4)
  | _, _, _, _ => none

/-- The backward scan of `find_central_directory_offset` (src/zip.rs lines
132-144), structural on the position (it decreases by 1 per iteration).
`none` covers both the EOCD-not-found error and a propagated read error —
either way `Zip::new` fails with a returned error. -/
def findEocdLoop (data : List Nat) : Nat → Option Nat
  | 0 => none
  | p + 1 =>
    match readU32 data (p + 1) with
    | none => none
    | some (sig, p2) =>
      if sig = 0x06054b50 then
        match readU32 data (p2 + 12) with
        | some (off, _) => some off
        | none => none
      else findEocdLoop data p

/-- Standard UTF-8 decoding with full validation, as `String::from_utf8`
performs on the file-name bytes. -/
def utf8Cont (b : Nat) : Bool := 0x80 ≤ b && b ≤ 0xBF

def utf8Decode : List Nat → Option (List Char)
  | [] => some []
  | b :: rest =>
    if b < 0x80 then
      (utf8Decode rest).map (fun t => Char.ofNat b :: t)
    else if 0xC2 ≤ b && b ≤ 0xDF then
      match rest with
      | c :: rest2 =>
        if utf8Cont c then
          (utf8Decode rest2).map
            (fun t => Char.ofNat ((b - 0xC0) * 64 + (c - 0x80)) :: t)
        else none
      | [] => none
    else if 0xE0 ≤ b && b ≤ 0xEF then
      match rest with
      | c :: d :: rest2 =>
        if (if b = 0xE0 then 0xA0 ≤ c && c ≤ 0xBF
            else if b = 0xED then 0x80 ≤ c && c ≤ 0x9F
            else utf8Cont c) && utf8Cont d then
          (utf8Decode rest2).map
            (fun t => Char.ofNat
              ((b - 0xE0) * 4096 + (c - 0x80) * 64 + (d - 0x80)) :: t)
        else none
      | _ => none
    else if 0xF0 ≤ b && b ≤ 0xF4 then
      match rest with
      | c :: d :: e :: rest2 =>
        if (if b = 0xF0 then 0x90 ≤ c && c ≤ 0xBF
            else if b = 0xF4 then 0x80 ≤ c && c ≤ 0x8F
            else utf8Cont c) && utf8Cont d && utf8Cont e then
          (utf8Decode rest2).map
            (fun t => Char.ofNat
              ((b - 0xF0) * 262144 + (c - 0x80) * 4096 + (d - 0x80) * 64
                + (e - 0x80)) :: t)
        else none
      | _ => none
    else none

/-- The result of `read_central_file_header` (src/zip.rs lines 146-201):
`done` for a non-central signature (`Ok(None)`), or an entry together with
the cursor position left for the next header.  Note the source returns
*before* skipping the extra field and comment when the name ends in `'/'`. -/
inductive HeaderResult where
  | done
  | entry (name : List Char) (e : Option Entry) (nextPos : Nat)
  | err (z : ZErr)
deriving DecidableEq, Repr

/-- `read_central_file_header`.  The unsupported-compression arm of the
source builds `Err("Oh no")` and immediately `unwrap`s it: a panic, not a
returned error. -/
def read_central_file_header (data : List Nat) (pos : Nat) : HeaderResult :=
  match readU32 data pos with
  | none => .err (.failure "eof")
  | some (sig, p1) =>
    if sig ≠ 0x02014b50 then .done
    else
      let p2 := p1 + 4 + 2
      match readU16 data p2 with
      | none => .err (.failure "eof")
      | some (method, p3) =>
        let p4 := p3 + 4
        if ¬(method = 0 ∨ method = 8) then
          .err (.panicked "called unwrap on an Err value: Oh no")
        else
          let compression := if method = 0 then Compression.uncompressed
            else Compression.deflate
          match readU32 data p4 with
          | none => .err (.failure "eof")
          | some (_, p5) =>
          match readU32 data p5 with
          | none => .err (.failure "eof")
          | some (csize, p6) =>
          match readU32 data p6 with
          | none => .err (.failure "eof")
          | some (_, p7) =>
          match readU16 data p7 with
          | none => .err (.failure "eof")
          | some (nameLen, p8) =>
          match readU16 data p8 with
          | none => .err (.failure "eof")
          | some (extraLen, p9) =>
          match readU16 data p9 with
          | none => .err (.failure "eof")
          | some (commentLen, p10) =>
          match readU16 data p10 with
          | none => .err (.failure "eof")
          | some (_, p11) =>
          match readU16 data p11 with
          | none => .err (.failure "eof")
          | some (_, p12) =>
          match readU32 data p12 with
          | none => .err (.failure "eof")
          | some (_, p13) =>
          match readU32 data p13 with
          | none => .err (.failure "eof")
          | some (localOff, p14) =>
          if p14 + nameLen ≤ data.length then
            match utf8Decode ((data.drop p14).take nameLen) with
            | none => .err (.failure "invalid utf-8")
            | some name =>
              let p15 := p14 + nameLen
              if name.getLast? = some '/' then
                .entry name none p15
              else
                let p16 := p15 + extraLen + commentLen
                match readU16 data (localOff + 26) with
                | none => .err (.failure "eof")
                | some (lnl, q1) =>
                match readU16 data q1 with
                | none => .err (.failure "eof")
                | some (lel, _) =>
                  .entry name (some ⟨compression, localOff + 30 + lnl + lel, csize⟩)
                    p16
          else .err (.failure "eof")

/-- Association-list lookup (the observable behaviour of `HashMap::get`). -/
def mapLookup {α β : Type} [DecidableEq α] : List (α × β) → α → Option β
  | [], _ => none
  | (k, v) :: rest, k' => if k = k' then some v else mapLookup rest k'

/-- `HashMap::insert`: bind `k` to `v`, replacing any previous binding. -/
def mapInsert {α β : Type} [DecidableEq α] (m : List (α × β)) (k : α) (v : β) :
    List (α × β) :=
  (k, v) :: m.filter fun kv => ¬kv.1 = k

/-- The `while let Some(entry)` loop of `list_zip_entries` (src/zip.rs
lines 115-130), fueled: each header consumes at least 46 bytes, so
`data.length + 1` fuel always covers a real archive.  The iteration order
of the resulting map is irrelevant downstream (`Zip::new` builds sets). -/
def listEntriesLoop (data : List Nat) :
    Nat → Nat → List (List Char × Option Entry) →
    Except ZErr (List (List Char × Option Entry))
  | 0, _, _ => .error (.failure "fuel exhausted")
  | fuel + 1, pos, acc =>
    match read_central_file_header data pos with
    | .done => .ok acc
    | .err z => .error z
    | .entry name e next => listEntriesLoop data fuel next (mapInsert acc name e)

/-- `list_zip_entries`.  The initial cursor position is
`data.len() - 22`, a wrapping subtraction when the archive is shorter than
an EOCD record (the resulting huge position makes the first read fail,
like in the source). -/
def list_zip_entries (data : List Nat) :
    Except ZErr (List (List Char × Option Entry)) :=
  let pos0 := if 22 ≤ data.length then data.length - 22
    else data.length + (USIZE_MAX + 1) - 22
  match findEocdLoop data pos0 with
  | none => .error (.failure "End of central directory record not found.")
  | some off => listEntriesLoop data (data.length + 1) off []

/-- `Zip` (src/zip.rs lines 22-27): backing storage plus the file and
directory indices. -/
structure ZipIndex where
  storage : List Nat
  files : List (List Char × Entry)
  dirs : List (List Char)
deriving DecidableEq, Repr

/-- `HashSet::insert`. -/
def setInsert (s : List (List Char)) (x : List Char) : List (List Char) :=
  if x ∈ s then s else x :: s

/-- The body of the `for t in 1..segments.len() - 1` loop of `Zip::new`:
insert the `/`-terminated join of `segments[0..t]` into `dirs`. -/
def zipDirStep (nm : List Char) (acc : ZipIndex) (t : Nat) : ZipIndex :=
  { acc with
    dirs := setInsert acc.dirs
      (joinSlash ((splitBy (fun c => c = '/') nm).take t) ++ ['/']) }

/-- One iteration of the indexing loop of `Zip::new` (src/zip.rs lines
38-52): normalize the entry name, insert the `/`-terminated joins of
`segments[0..t]` for `t in 1..segments.len()-1` into `dirs`, then record
the entry as a file or an explicit directory. -/
def zipEntryStep (z : ZipIndex) (ne : List Char × Option Entry) : ZipIndex :=
  let name := normalize_path ne.1
  let segments := splitBy (fun c => c = '/') name
  let z' := (List.range' 1 (segments.length - 1 - 1)).foldl (zipDirStep name) z
  match ne.2 with
  | some e => { z' with files := mapInsert z'.files name e }
  | none => { z' with dirs := setInsert z'.dirs name }

/-- The indexing fold of `Zip::new`. -/
def zipFromEntries (storage : List Nat)
    (entries : List (List Char × Option Entry)) : ZipIndex :=
  entries.foldl zipEntryStep { storage := storage, files := [], dirs := [] }

/-- `Zip::new` (src/zip.rs lines 31-55). -/
def zipNew (data : List Nat) : Except ZErr ZipIndex :=
  match list_zip_entries data with
  | .error z => .error z
  | .ok entries => .ok (zipFromEntries data entries)

/-- `FileType` (src/fs.rs lines 8-12). -/
inductive FileType where
  | file
  | directory
deriving DecidableEq, Repr

/-- `Zip::is_dir` (src/zip.rs lines 67-73). -/
def ZipIndex.is_dir (z : ZipIndex) (p : List Char) : Bool :=
  if endsSlash p then decide (p ∈ z.dirs) else decide ((p ++ ['/']) ∈ z.dirs)

/-- `Zip::file_type` (src/zip.rs lines 57-65); `none` is the `NotFound`
I/O error. -/
def ZipIndex.file_type (z : ZipIndex) (p : List Char) : Option FileType :=
  if z.is_dir p then some .directory
  else if (mapLookup z.files p).isSome then some .file
  else none

/-- Outcome of `Zip::read`. -/
inductive ReadResult where
  | ok (bytes : List Nat)
  | notFound
  | decompressionError
  | panicked
deriving DecidableEq, Repr

/-- `Zip::read` (src/zip.rs lines 75-94).  `inflate` models the raw
DEFLATE decompressor of the external `miniz_oxide` crate; a slice outside
the backing storage would panic in Rust. -/
def ZipIndex.read (z : ZipIndex) (inflate : List Nat → Option (List Nat))
    (p : List Char) : ReadResult :=
  match mapLookup z.files p with
  | none => .notFound
  | some e =>
    if e.offset + e.size ≤ z.storage.length then
      let slice := (z.storage.drop e.offset).take e.size
      match e.compression with
      | .deflate =>
        match inflate slice with
        | some out => .ok out
        | none => .decompressionError
      | .uncompressed => .ok slice
    else .panicked

/-! ### Concrete archives used as inputs -/

/-- Little-endian 16-bit encoding (test input construction). -/
def u16le (n : Nat) : List Nat := [n % 256, n / 256 % 256]

/-- Little-endian 32-bit encoding (test input construction). -/
def u32le (n : Nat) : List Nat :=
  [n % 256, n / 256 % 256, n / 65536 % 256, n / 16777216 % 256]

/-- A central-directory file header with the given compression method,
compressed size, local-header offset and name bytes (all other fields 0). -/
def centralHeader (method csize localOff : Nat) (name : List Nat) :
    List Nat :=
  [0x50, 0x4b, 0x01, 0x02] ++ [0, 0, 0, 0] ++ [0, 0] ++ u16le method
    ++ [0, 0, 0, 0] ++ [0, 0, 0, 0] ++ u32le csize ++ [0, 0, 0, 0]
    ++ u16le name.length ++ [0, 0] ++ [0, 0] ++ [0, 0] ++ [0, 0]
    ++ [0, 0, 0, 0] ++ u32le localOff ++ name

/-- An end-of-central-directory record pointing at `cdOff`. -/
def eocd (cdOff : Nat) : List Nat :=
  [0x50, 0x4b, 0x05, 0x06] ++ List.replicate 12 0 ++ u32le cdOff ++ [0, 0]

/-- A minimal local-header block: only bytes 26..30 (the name and
extra-field lengths) are ever read by the parser. -/
def localHeaderFor (name : List Nat) : List Nat :=
  List.replicate 26 0 ++ u16le name.length ++ [0, 0] ++ name

/-- An archive whose single central header uses compression method 5. -/
def c3bytes : List Nat :=
  centralHeader 5 0 0 [] ++ eocd 0

/-- An archive with the single file `"a/b/c.txt"` (STORE, empty payload)
and no explicit directory entries. -/
def c4bytes : List Nat :=
  localHeaderFor (cs "a/b/c.txt" |>.map Char.toNat)
    ++ centralHeader 0 0 0 (cs "a/b/c.txt" |>.map Char.toNat)
    ++ eocd 39

/-- An archive with the file `"a"` (STORE, empty payload) and an explicit
directory entry `"a/"`. -/
def c6bytes : List Nat :=
  localHeaderFor [97]
    ++ centralHeader 0 0 0 [97]
    ++ centralHeader 0 0 0 [97, 47]
    ++ eocd 31

/-! ### Claim C3 — unsupported compression methods -/

/-- C3: opening an archive whose central-directory header carries
compression method 5 does not return an archive-open error: the source
builds `Err("Oh no")` and immediately `unwrap`s it, so `Zip::new` panics.
The claim (and the spec) describe the intended behaviour — failing the
open — which the code does not implement. -/
theorem c3_unsupported_method_panics :
    zipNew c3bytes = .error (.panicked "called unwrap on an Err value: Oh no")
      ∧ ∀ msg, zipNew c3bytes ≠ .error (.failure msg) := by
  refine ⟨by decide, ?_⟩
  intro msg hcon
  have h1 : zipNew c3bytes
      = .error (.panicked "called unwrap on an Err value: Oh no") := by decide
  rw [h1] at hcon
  injection hcon with e
  exact ZErr.noConfusion e

/-! ### Claim C4 — directory prefixes of indexed file names -/

/-- C4, counterexample.  Opening the archive containing only the file
`"a/b/c.txt"` (no explicit directory entries) indexes `"a/"` but *not*
`"a/b/"`: the loop `for t in 1..segments.len() - 1` stops one segment
short of the final separator, so the immediate parent directory is
missing from `dirs`. -/
theorem c4_counterexample :
    ∃ z, zipNew c4bytes = .ok z ∧
      (mapLookup z.files (cs "a/b/c.txt")).isSome = true ∧
      cs "a/" ∈ z.dirs ∧ ¬cs "a/b/" ∈ z.dirs := by
  refine ⟨⟨c4bytes, [(cs "a/b/c.txt", ⟨.uncompressed, 39, 0⟩)], [cs "a/"]⟩,
    by decide, by decide, by decide, by decide⟩

lemma mem_setInsert_of_mem (s : List (List Char)) (y x : List Char)
    (h : x ∈ s) : x ∈ setInsert s y := by
  unfold setInsert
  split
  · exact h
  · exact List.mem_cons_of_mem _ h

lemma mem_setInsert_self (s : List (List Char)) (y : List Char) :
    y ∈ setInsert s y := by
  unfold setInsert
  split
  · assumption
  · exact List.mem_cons_self _ _

lemma zipDirStep_mono (nm : List Char) (x : List Char) :
    ∀ (ts : List Nat) (acc : ZipIndex), x ∈ acc.dirs →
      x ∈ (ts.foldl (zipDirStep nm) acc).dirs := by
  intro ts
  induction ts with
  | nil => intro acc h; exact h
  | cons t rest ih =>
    intro acc h
    rw [List.foldl_cons]
    apply ih
    exact mem_setInsert_of_mem _ _ _ h

lemma zipDirStep_self (nm : List Char) (t : Nat) :
    ∀ (ts : List Nat) (acc : ZipIndex), t ∈ ts →
      joinSlash ((splitBy (fun c => c = '/') nm).take t) ++ ['/']
        ∈ (ts.foldl (zipDirStep nm) acc).dirs := by
  intro ts
  induction ts with
  | nil => intro acc h; simp at h
  | cons u rest ih =>
    intro acc h
    rw [List.foldl_cons]
    rcases List.mem_cons.mp h with h | h
    · subst h
      apply zipDirStep_mono
      exact mem_setInsert_self _ _
    · exact ih _ h

lemma zipDirStep_files (nm : List Char) :
    ∀ (ts : List Nat) (acc : ZipIndex),
      (ts.foldl (zipDirStep nm) acc).files = acc.files := by
  intro ts
  induction ts with
  | nil => intro acc; rfl
  | cons u rest ih =>
    intro acc
    rw [List.foldl_cons, ih]
    rfl

lemma zipEntryStep_dirs_mono (z : ZipIndex) (ne : List Char × Option Entry)
    (x : List Char) (hx : x ∈ z.dirs) : x ∈ (zipEntryStep z ne).dirs := by
  unfold zipEntryStep
  rcases ne2 : ne.2 with _ | e
  · exact mem_setInsert_of_mem _ _ _
      (zipDirStep_mono (normalize_path ne.1) x _ z hx)
  · exact zipDirStep_mono (normalize_path ne.1) x _ z hx

lemma zipEntryStep_dirs_self (z : ZipIndex) (ne : List Char × Option Entry)
    (t : Nat) (ht1 : 1 ≤ t)
    (ht2 : t + 1 < (splitBy (fun c => c = '/') (normalize_path ne.1)).length) :
    joinSlash ((splitBy (fun c => c = '/') (normalize_path ne.1)).take t)
      ++ ['/'] ∈ (zipEntryStep z ne).dirs := by
  unfold zipEntryStep
  have hmem : t ∈ List.range' 1
      ((splitBy (fun c => c = '/') (normalize_path ne.1)).length - 1 - 1) := by
    rw [List.mem_range'_1]
    omega
  have hin := zipDirStep_self (normalize_path ne.1) t _ z hmem
  rcases ne2 : ne.2 with _ | e
  · exact mem_setInsert_of_mem _ _ _ hin
  · exact hin

lemma zipEntryStep_files (z : ZipIndex) (ne : List Char × Option Entry)
    (name : List Char) (e : Entry)
    (h : mapLookup (zipEntryStep z ne).files name = some e) :
    name = normalize_path ne.1 ∨ mapLookup z.files name = some e := by
  unfold zipEntryStep at h
  simp only at h
  rcases ne2 : ne.2 with _ | e'
  · rw [ne2] at h
    simp only at h
    right
    rwa [zipDirStep_files] at h
  · rw [ne2] at h
    simp only at h
    rw [zipDirStep_files] at h
    unfold mapInsert at h
    by_cases hn : name = normalize_path ne.1
    · exact Or.inl hn
    · right
      rw [mapLookup] at h
      rw [if_neg (by intro hc; exact hn hc.symm)] at h
      have hfilter : ∀ (m : List (List Char × Entry)),
          mapLookup (m.filter fun kv => ¬kv.1 = normalize_path ne.1) name
            = mapLookup m name := by
        intro m
        induction m with
        | nil => rfl
        | cons kv rest ih =>
          by_cases hk : kv.1 = normalize_path ne.1
          · rw [List.filter_cons_of_neg (by simpa using hk), ih]
            cases kv with
            | mk k v =>
              simp only at hk
              rw [mapLookup, if_neg (by rw [hk]; intro hc; exact hn hc.symm)]
          · rw [List.filter_cons_of_pos (by simpa using hk)]
            cases kv with
            | mk k v =>
              rw [mapLookup, mapLookup]
              split
              · rfl
              · exact ih
      rwa [hfilter] at h

/-- C4, amended.  For every successfully opened archive and file name in
its `files` map, every proper prefix of the name up to but *excluding* the
final `'/'` separator is present in `dirs` (`t` ranges over
`1 ..= segments-2`): the immediate parent directory is only present when
the archive contains an explicit entry for it or a deeper sibling makes it
a non-final prefix. -/
theorem c4_amended (data : List Nat) (z : ZipIndex)
    (h : zipNew data = .ok z) (name : List Char) (e : Entry)
    (hf : mapLookup z.files name = some e) (t : Nat) (ht1 : 1 ≤ t)
    (ht2 : t + 1 < (splitBy (fun c => c = '/') name).length) :
    joinSlash ((splitBy (fun c => c = '/') name).take t) ++ ['/'] ∈ z.dirs := by
  unfold zipNew at h
  rcases hp : list_zip_entries data with z' | entries
  · rw [hp] at h
    exact absurd h (by simp)
  · rw [hp] at h
    injection h with h'
    subst h'
    clear hp
    unfold zipFromEntries at hf ⊢
    -- fold induction over the entry list, generalizing the accumulator
    suffices hgen : ∀ (es : List (List Char × Option Entry)) (acc : ZipIndex),
        (∀ nm ee, mapLookup acc.files nm = some ee →
          nm = normalize_path nm) →
        (∀ nm ee, mapLookup acc.files nm = some ee →
          ∀ u, 1 ≤ u → u + 1 < (splitBy (fun c => c = '/') nm).length →
            joinSlash ((splitBy (fun c => c = '/') nm).take u) ++ ['/']
              ∈ acc.dirs) →
        ∀ nm ee, mapLookup (es.foldl zipEntryStep acc).files nm = some ee →
          ∀ u, 1 ≤ u → u + 1 < (splitBy (fun c => c = '/') nm).length →
            joinSlash ((splitBy (fun c => c = '/') nm).take u) ++ ['/']
              ∈ (es.foldl zipEntryStep acc).dirs by
      exact hgen entries _ (fun nm ee hL => by simp [mapLookup] at hL)
        (fun nm ee hL => by simp [mapLookup] at hL) name e hf t ht1 ht2
    intro es
    induction es with
    | nil =>
      intro acc _ hdirs nm ee hL u hu1 hu2
      exact hdirs nm ee hL u hu1 hu2
    | cons ne rest ih =>
      intro acc hnorm hdirs nm ee hL u hu1 hu2
      rw [List.foldl_cons] at hL ⊢
      refine ih (zipEntryStep acc ne) ?_ ?_ nm ee hL u hu1 hu2
      · intro nm' ee' hL'
        rcases zipEntryStep_files acc ne nm' ee' hL' with hc | hc
        · rw [hc, c8_normalize_idempotent]
        · exact hnorm nm' ee' hc
      · intro nm' ee' hL' u' hu1' hu2'
        rcases zipEntryStep_files acc ne nm' ee' hL' with hc | hc
        · subst hc
          exact zipEntryStep_dirs_self acc ne u' hu1' hu2'
        · exact zipEntryStep_dirs_mono acc ne _ (hdirs nm' ee' hc u' hu1' hu2')

/-- C4 witness: the amended statement at the `c4bytes` archive,
`name = "a/b/c.txt"`, `t = 1` (so `"a/"` is in `dirs`). -/
theorem c4_amended_witness :
    joinSlash ((splitBy (fun c => c = '/') (cs "a/b/c.txt")).take 1) ++ ['/']
      ∈ (⟨c4bytes, [(cs "a/b/c.txt", ⟨.uncompressed, 39, 0⟩)],
          [cs "a/"]⟩ : ZipIndex).dirs :=
  c4_amended c4bytes
    ⟨c4bytes, [(cs "a/b/c.txt", ⟨.uncompressed, 39, 0⟩)], [cs "a/"]⟩
    (by decide) (cs "a/b/c.txt") ⟨.uncompressed, 39, 0⟩ (by decide)
    1 (by decide) (by decide)

/-! ### Claim C6 — coherence of `read` and `file_type` -/

set_option maxRecDepth 8000 in
/-- C6, counterexample.  In the archive holding a file `"a"` *and* an
explicit directory `"a/"`, `read "a"` succeeds (STORE, empty payload) yet
`file_type "a"` answers `Directory`, because `is_dir` is consulted before
the file map. -/
theorem c6_counterexample :
    ∃ z, zipNew c6bytes = .ok z ∧
      z.read (fun _ => none) (cs "a") = .ok [] ∧
      z.file_type (cs "a") = some .directory := by
  refine ⟨⟨c6bytes, [(cs "a", ⟨.uncompressed, 31, 0⟩)], [cs "a/"]⟩,
    by decide, by decide, by decide⟩

/-- C6, amended.  For every zip index and name: a successful `read` means
`file_type` answers `File` *provided the name is not also indexed as a
directory* (with a `dirs` entry `name ++ "/"`, `file_type` answers
`Directory` even though `read` succeeds — see `c6_counterexample`); and a
`NotFound` from `read` means `file_type` answers `Directory` or
`NotFound`. -/
theorem c6_amended (z : ZipIndex) (inflate : List Nat → Option (List Nat))
    (n : List Char) :
    (∀ bs, z.read inflate n = .ok bs → z.is_dir n = false →
      z.file_type n = some .file) ∧
    (z.read inflate n = .notFound →
      z.file_type n = some .directory ∨ z.file_type n = none) := by
  constructor
  · intro bs hread hdir
    unfold ZipIndex.read at hread
    rcases hL : mapLookup z.files n with _ | e
    · rw [hL] at hread
      exact absurd hread (by simp)
    · unfold ZipIndex.file_type
      rw [hdir]
      simp only [Bool.false_eq_true, if_false, hL, Option.isSome_some, if_true]
  · intro hread
    unfold ZipIndex.read at hread
    rcases hL : mapLookup z.files n with _ | e
    · unfold ZipIndex.file_type
      rw [hL]
      by_cases hd : z.is_dir n
      · rw [hd]
        exact Or.inl (by simp)
      · rw [Bool.not_eq_true] at hd
        rw [hd]
        exact Or.inr (by simp)
    · rw [hL] at hread
      exfalso
      simp only at hread
      split at hread
      · split at hread
        · split at hread <;> exact ReadResult.noConfusion hread
        · exact ReadResult.noConfusion hread
      · exact ReadResult.noConfusion hread

/-- C6 witness: the amended statement at two concrete indices. -/
theorem c6_amended_witness :
    (ZipIndex.file_type ⟨[97], [(cs "a", ⟨.uncompressed, 0, 1⟩)], []⟩ (cs "a")
      = some .file) ∧
    (ZipIndex.file_type ⟨[], [], []⟩ (cs "a") = some .directory ∨
     ZipIndex.file_type ⟨[], [], []⟩ (cs "a") = none) := by
  constructor
  · exact (c6_amended ⟨[97], [(cs "a", ⟨.uncompressed, 0, 1⟩)], []⟩
      (fun _ => none) (cs "a")).1 [97] (by decide) (by decide)
  · exact (c6_amended ⟨[], [], []⟩ (fun _ => none) (cs "a")).2 (by decide)

/-! ## lib.rs — manifest model, loader and resolution engine -/

/-- `PackageLocator` (src/lib.rs lines 48-52). -/
structure PackageLocator where
  name : List Char
  reference : List Char
deriving DecidableEq, Repr

/-- `PackageDependency` (src/lib.rs lines 54-59). -/
inductive PackageDependency where
  | reference (r : List Char)
  | alias (n r : List Char)
deriving DecidableEq, Repr

/-- `PackageInformation` (src/lib.rs lines 61-72). -/
structure PackageInformation where
  packageLocation : List Char
  discardFromLookup : Bool
  packageDependencies : List (List Char × Option PackageDependency)
deriving DecidableEq, Repr

/-- `Manifest` (src/lib.rs lines 74-119).  The compiled `ignorePatternData`
regex of the external `fancy_regex` crate is represented by its matching
function. -/
structure Manifest where
  manifestDir : List Char
  manifestPath : List Char
  locationTrie : List (List Char × PackageLocator)
  enableTopLevelFallback : Bool
  ignorePatternData : Option (List Char → Bool)
  dependencyTreeRoots : List PackageLocator
  fallbackPool : List (List Char × Option PackageDependency)
  fallbackExclusionList : List (List Char × List (List Char))
  packageRegistryData : List (List Char × List (List Char × PackageInformation))

/-- `Trie::key` (src/util.rs lines 15-23): normalize and force a trailing
slash. -/
def trieKey (p : List Char) : List Char :=
  let n := normalize_path p
  if endsSlash n then n else n ++ ['/']

/-- `Trie::insert` (src/util.rs lines 29-34). -/
def trieInsert (t : List (List Char × PackageLocator)) (key : List Char)
    (v : PackageLocator) : List (List Char × PackageLocator) :=
  mapInsert t (trieKey key) v

/-- `Trie::get_ancestor_value` (src/util.rs lines 25-27, backed by
`radix_trie`): the value of the longest stored key that prefixes the
(slash-terminated) query key. -/
def trieGetAncestorValue (t : List (List Char × PackageLocator))
    (p : List Char) : Option PackageLocator :=
  (t.foldl (fun best kv =>
    if kv.1.isPrefixOf (trieKey p) then
      match best with
      | none => some kv
      | some bkv => if bkv.1.length < kv.1.length then some kv else best
    else best) none).map Prod.snd

/-- Strip the common leading components of two component lists. -/
def stripCommon : List (List Char) → List (List Char) →
    List (List Char) × List (List Char)
  | p :: ps, b :: bs =>
    if p = b then stripCommon ps bs else (p :: ps, b :: bs)
  | ps, bs => (ps, bs)

/-- Modelled from the spec: `pathdiff::diff_paths(path, base)` (an external
crate).  Spec §4.7 step 3 prescribes the issuer path *relative to*
`manifest_dir`; the crate yields `None` when `base` is absolute but `path`
is relative, `Some(path)` when `path` is absolute but `base` is relative,
and otherwise strips the common component prefix and prepends one `".."`
per remaining base component. -/
def diffPaths (path base : List Char) : Option (List Char) :=
  if isRooted path && !isRooted base then some path
  else if !isRooted path && isRooted base then none
  else
    let pc := (splitBy (fun c => c = '/') path).filter
      (fun c => ¬(c = [] ∨ c = ['.']))
    let bc := (splitBy (fun c => c = '/') base).filter
      (fun c => ¬(c = [] ∨ c = ['.']))
    let r := stripCommon pc bc
    some (joinSlash (List.replicate r.2.length dotdot ++ r.1))

/-- `find_locator` (src/lib.rs lines 271-285).  The `.expect` on
`diff_paths` and the `.unwrap()` on the regex are panics, modelled by the
`.error` constructor carrying the panic message. -/
def find_locator (m : Manifest) (path : List Char) :
    Except String (Option PackageLocator) :=
  match diffPaths path m.manifestDir with
  | none => .error "Assertion failed: Provided path should be absolute"
  | some rel =>
    match m.ignorePatternData with
    | some re =>
      if re (normalize_path rel) then .ok none
      else .ok (trieGetAncestorValue m.locationTrie path)
    | none => .ok (trieGetAncestorValue m.locationTrie path)

/-- `get_package` (src/lib.rs lines 287-300); the two `.expect`s are
panics, modelled by `.error`. -/
def get_package (m : Manifest) (loc : PackageLocator) :
    Except String PackageInformation :=
  match mapLookup m.packageRegistryData loc.name with
  | none => .error "Should have an entry in the package registry"
  | some refs =>
    match mapLookup refs loc.reference with
    | none => .error "Should have an entry in the package registry"
    | some info => .ok info

/-- `is_excluded_from_fallback` (src/lib.rs lines 302-308): keyed by the
issuer locator's own name and reference. -/
def is_excluded_from_fallback (m : Manifest) (loc : PackageLocator) : Bool :=
  match mapLookup m.fallbackExclusionList loc.name with
  | some refs => decide (loc.reference ∈ refs)
  | none => false

/-- `find_broken_peer_dependencies` (src/lib.rs lines 310-315): always the
empty vector. -/
def find_broken_peer_dependencies (_dependency : List Char)
    (_initialPackage : PackageLocator) : List PackageLocator :=
  []

/-- `is_dependency_tree_root` (src/lib.rs lines 267-269). -/
def is_dependency_tree_root (m : Manifest) (loc : PackageLocator) : Bool :=
  decide (loc ∈ m.dependencyTreeRoots)

/-- `str::splitn(n, sep)`: split at the first separator. -/
def splitFirst (sep : Char) : List Char → Option (List Char × List Char)
  | [] => none
  | c :: rest =>
    if c = sep then some ([], rest)
    else
      match splitFirst sep rest with
      | none => none
      | some (a, b) => some (c :: a, b)

/-- `str::splitn(n, sep)`: at most `n` pieces, the last holding the rest. -/
def splitnList : Nat → Char → List Char → List (List Char)
  | 0, _, _ => []
  | 1, _, s => [s]
  | n + 2, sep, s =>
    match splitFirst sep s with
    | none => [s]
    | some (a, b) => a :: splitnList (n + 1) sep b

/-- `parse_scoped_package_name` (src/lib.rs lines 121-133). -/
def parse_scoped_package_name (specifier : List Char) :
    Option (List Char × Option (List Char)) :=
  match splitnList 3 '/' specifier with
  | scope :: nm :: rest =>
    some (specifier.take (scope.length + nm.length + 1), rest.head?)
  | _ => none

/-- `parse_global_package_name` (src/lib.rs lines 135-145). -/
def parse_global_package_name (specifier : List Char) :
    Option (List Char × Option (List Char)) :=
  match splitnList 2 '/' specifier with
  | nm :: rest => some (nm, rest.head?)
  | [] => none

/-- `BadSpecifier` (src/error.rs). -/
structure BadSpecifier where
  message : List Char
  specifier : List Char
deriving DecidableEq, Repr

/-- `FailedManifestHydration` (src/error.rs). -/
structure FailedManifestHydration where
  message : List Char
  manifestPath : List Char
deriving DecidableEq, Repr

/-- `UndeclaredDependency` (src/error.rs). -/
structure UndeclaredDependency where
  message : List Char
  request : List Char
  dependencyName : List Char
  issuerLocator : PackageLocator
  issuerPath : List Char
deriving DecidableEq, Repr

/-- `MissingPeerDependency` (src/error.rs). -/
structure MissingPeerDependency where
  message : List Char
  request : List Char
  dependencyName : List Char
  issuerLocator : PackageLocator
  issuerPath : List Char
  brokenAncestors : List PackageLocator
deriving DecidableEq, Repr

/-- `MissingDependency` (src/error.rs). -/
structure MissingDependency where
  message : List Char
  request : List Char
  dependencyLocator : PackageLocator
  dependencyName : List Char
  issuerLocator : PackageLocator
  issuerPath : List Char
deriving DecidableEq, Repr

/-- `Error` (src/error.rs lines 8-24). -/
inductive RError where
  | badSpecifier (e : BadSpecifier)
  | failedManifestHydration (e : FailedManifestHydration)
  | missingPeerDependency (e : MissingPeerDependency)
  | undeclaredDependency (e : UndeclaredDependency)
  | missingDependency (e : MissingDependency)
deriving DecidableEq, Repr

/-- `parse_bare_identifier` (src/lib.rs lines 147-159). -/
def parse_bare_identifier (specifier : List Char) :
    Except RError (List Char × Option (List Char)) :=
  match (if specifier.head? = some '@' then parse_scoped_package_name specifier
         else parse_global_package_name specifier) with
  | some r => .ok r
  | none => .error (.badSpecifier ⟨cs "Invalid specifier", specifier⟩)

/-- `Resolution` (src/lib.rs lines 26-30). -/
inductive Resolution where
  | resolved (packageLocation : List Char) (subpath : Option (List Char))
  | skipped
deriving DecidableEq, Repr

/-- Outcome of a resolution call, with the `.expect`/`.unwrap` panics of
the source modelled explicitly. -/
inductive ROut where
  | ok (r : Resolution)
  | err (e : RError)
  | panicked (msg : String)
deriving DecidableEq, Repr

/-- Modelled from the spec: `builtins.rs` is declared (`mod builtins;`)
but absent from src/; the spec describes `is_nodejs_builtin` as membership
in a closed, enumerated set of Node builtin module names.  Only the error
message wording depends on it. -/
def nodejsBuiltins : List (List Char) :=
  [cs "assert", cs "buffer", cs "child_process", cs "cluster", cs "console",
   cs "constants", cs "crypto", cs "dgram", cs "dns", cs "domain",
   cs "events", cs "fs", cs "http", cs "http2", cs "https", cs "inspector",
   cs "module", cs "net", cs "os", cs "path", cs "perf_hooks", cs "process",
   cs "punycode", cs "querystring", cs "readline", cs "repl", cs "stream",
   cs "string_decoder", cs "timers", cs "tls", cs "trace_events", cs "tty",
   cs "url", cs "util", cs "v8", cs "vm", cs "wasi", cs "worker_threads",
   cs "zlib"]

/-- Modelled from the spec (see `nodejsBuiltins`). -/
def is_nodejs_builtin (s : List Char) : Bool := decide (s ∈ nodejsBuiltins)

/-- The `via` fragment shared by all resolution error messages. -/
def viaOf (ident specifier : List Char) : List Char :=
  if ¬ident = specifier then cs " (via \"" ++ specifier ++ cs "\")" else cs ""

/-- The message of the `UndeclaredDependency` error (src/lib.rs lines
347-397), including the literal `$` characters of the source templates. -/
def undeclaredMessage (m : Manifest) (specifier ident : List Char)
    (parentLocator : PackageLocator) (parent : List Char) : List Char :=
  if is_nodejs_builtin specifier then
    if is_dependency_tree_root m parentLocator then
      cs "Your application tried to access " ++ ident
        ++ cs ". While this module is usually interpreted as a Node builtin, your resolver is running inside a non-Node resolution context where such builtins are ignored. Since "
        ++ ident
        ++ cs " isn\x27t otherwise declared in your dependencies, this makes the require call ambiguous and unsound.\n\nRequired package: "
        ++ ident ++ viaOf ident specifier
        ++ cs "\nRequired by: $" ++ parent
    else
      cs "$" ++ parentLocator.name ++ cs " tried to access " ++ ident
        ++ cs ". While this module is usually interpreted as a Node builtin, your resolver is running inside a non-Node resolution context where such builtins are ignored. Since "
        ++ ident ++ cs " isn\x27t otherwise declared in $"
        ++ parentLocator.name
        ++ cs "\x27s dependencies, this makes the require call ambiguous and unsound.\n\nRequired package: "
        ++ ident ++ viaOf ident specifier
        ++ cs "\nRequired by: $" ++ parent
  else if is_dependency_tree_root m parentLocator then
    cs "Your application tried to access " ++ ident
      ++ cs ", but it isn\x27t declared in your dependencies; this makes the require call ambiguous and unsound.\n\nRequired package: "
      ++ ident ++ viaOf ident specifier
      ++ cs "\nRequired by: " ++ parent
  else
    parentLocator.name ++ cs " tried to access " ++ ident
      ++ cs ", but it isn\x27t declared in its dependencies; this makes the require call ambiguous and unsound.\n\nRequired package: "
      ++ ident ++ viaOf ident specifier
      ++ cs "\nRequired by: " ++ parentLocator.name ++ cs "@"
      ++ parentLocator.reference ++ cs " (via " ++ parent ++ cs ")"

/-- The message of the `MissingPeerDependency` error (src/lib.rs lines
422-461). -/
def missingPeerMessage (m : Manifest) (specifier ident : List Char)
    (parentLocator : PackageLocator) (parent : List Char)
    (brokenAncestors : List PackageLocator) : List Char :=
  if is_dependency_tree_root m parentLocator then
    cs "Your application tried to access " ++ ident
      ++ cs " (a peer dependency); this isn\x27t allowed as there is no ancestor to satisfy the requirement. Use a devDependency if needed.\n\nRequired package: "
      ++ ident ++ viaOf ident specifier
      ++ cs "\nRequired by: " ++ parent
  else if ¬brokenAncestors = [] ∧
      brokenAncestors.all (fun l => is_dependency_tree_root m l) then
    parentLocator.name ++ cs " tried to access " ++ ident
      ++ cs " (a peer dependency) but it isn\x27t provided by your application; this makes the require call ambiguous and unsound.\n\nRequired package: "
      ++ ident ++ viaOf ident specifier
      ++ cs "\nRequired by: " ++ parentLocator.name ++ cs "@"
      ++ parentLocator.reference ++ cs " (via " ++ parent ++ cs ")"
  else
    parentLocator.name ++ cs " tried to access " ++ ident
      ++ cs " (a peer dependency) but it isn\x27t provided by its ancestors; this makes the require call ambiguous and unsound.\n\nRequired package: "
      ++ ident ++ viaOf ident specifier
      ++ cs "\nRequired by: " ++ parentLocator.name ++ cs "@"
      ++ parentLocator.reference ++ cs " (via " ++ parent ++ cs ")"

/-- Step 8 of the resolution algorithm: the locator named by a dependency
binding (src/lib.rs lines 409-416). -/
def depTarget (ident : List Char) : PackageDependency → PackageLocator
  | .reference r => ⟨ident, r⟩
  | .alias n r => ⟨n, r⟩

/-- Resolving through a found binding: a `get_package` on the target (its
`.expect`s panic) and the `Resolved` result (src/lib.rs lines 408-418). -/
def resolveVia (m : Manifest) (ident : List Char) (mp : Option (List Char))
    (d : PackageDependency) : ROut :=
  match get_package m (depTarget ident d) with
  | .error msg => .panicked msg
  | .ok depPkg => .ok (.resolved depPkg.packageLocation mp)

/-- The tail of `resolve_to_unqualified_via_manifest` after the dependency
and fallback lookups (src/lib.rs lines 347-471), as a function of
`reference_or_alias` (`none` encodes `is_set == false`). -/
def resolveAfterDeps (m : Manifest) (specifier ident : List Char)
    (mp : Option (List Char)) (parentLocator : PackageLocator)
    (parent : List Char) : Option (Option PackageDependency) → ROut
  | none =>
    .err (.undeclaredDependency
      ⟨undeclaredMessage m specifier ident parentLocator parent,
       specifier, ident, parentLocator, parent⟩)
  | some (some resolution) => resolveVia m ident mp resolution
  | some none =>
    .err (.missingPeerDependency
      ⟨missingPeerMessage m specifier ident parentLocator parent
        (find_broken_peer_dependencies specifier parentLocator),
       specifier, ident, parentLocator, parent, []⟩)

/-- `resolve_to_unqualified_via_manifest` (src/lib.rs lines 317-475).  The
mutable `is_set` / `reference_or_alias` pair of the source is linearized
into an `Option (Option PackageDependency)` (`none` = `is_set == false`). -/
def resolve_to_unqualified_via_manifest (m : Manifest) (specifier : List Char)
    (parent : List Char) : ROut :=
  match parse_bare_identifier specifier with
  | .error e => .err e
  | .ok (ident, modulePath) =>
    match find_locator m parent with
    | .error msg => .panicked msg
    | .ok none => .ok .skipped
    | .ok (some parentLocator) =>
      match get_package m parentLocator with
      | .error msg => .panicked msg
      | .ok parentPkg =>
        let step1 : Option (Option PackageDependency) :=
          match mapLookup parentPkg.packageDependencies ident with
          | some (some binding) => some (some binding)
          | _ => none
        let referenceOrAlias : Option (Option PackageDependency) :=
          match step1 with
          | some r => some r
          | none =>
            if m.enableTopLevelFallback
                && !is_excluded_from_fallback m parentLocator then
              mapLookup m.fallbackPool ident
            else none
        resolveAfterDeps m specifier ident modulePath parentLocator parent
          referenceOrAlias

/-- Sanity: `parse_bare_identifier` on scoped, global, plain and broken
specifiers. -/
theorem parse_bare_identifier_cases :
    parse_bare_identifier (cs "@a/b/c/d") = .ok (cs "@a/b", some (cs "c/d")) ∧
    parse_bare_identifier (cs "lodash/fp") = .ok (cs "lodash", some (cs "fp")) ∧
    parse_bare_identifier (cs "lodash") = .ok (cs "lodash", none) ∧
    parse_bare_identifier (cs "@a")
      = .error (.badSpecifier ⟨cs "Invalid specifier", cs "@a"⟩) := by
  decide

/-! ### C5 — own dependency vs fallback, exclusion-list keying -/

/-- The claim's reading of the exclusion check: whether the issuer is in
`fallback_exclusion_list` *for the requested name* (consult the list at
the requested name's key, then test the issuer's reference).  Stated for
comparison with the source's `is_excluded_from_fallback`, which keys by
the issuer locator's own name and never looks at the requested name. -/
def claimExcludedForName (m : Manifest) (issuer : PackageLocator)
    (ident : List Char) : Bool :=
  match mapLookup m.fallbackExclusionList ident with
  | some refs => decide (issuer.reference ∈ refs)
  | none => false

/-- Whether a resolution outcome is an `UndeclaredDependency` error. -/
def ROut.isUndeclared : ROut → Bool
  | .err (.undeclaredDependency _) => true
  | _ => false

/-- Issuer locator of the C5 counterexample manifest. -/
def c5locA : PackageLocator := ⟨cs "A", cs "r"⟩

/-- Issuer package information of the C5 counterexample manifest: no
dependencies of its own. -/
def c5infoA : PackageInformation := ⟨cs "/p/", false, []⟩

/-- The package the fallback pool points at in the C5 counterexample. -/
def c5infoB : PackageInformation := ⟨cs "/p/b/", false, []⟩

/-- C5 counterexample manifest: top-level fallback enabled, the fallback
pool holds `B`, and the exclusion list names the issuer `A@r` (not the
requested name `B`). -/
def manifestC5 : Manifest :=
  { manifestDir := cs "/p"
    manifestPath := cs "/p/.pnp.cjs"
    locationTrie := [(cs "/p/", c5locA)]
    enableTopLevelFallback := true
    ignorePatternData := none
    dependencyTreeRoots := []
    fallbackPool := [(cs "B", some (.reference (cs "br")))]
    fallbackExclusionList := [(cs "A", [cs "r"])]
    packageRegistryData :=
      [(cs "A", [(cs "r", c5infoA)]), (cs "B", [(cs "br", c5infoB)])] }

/-- C5 counterexample: requesting `"B"` from issuer `A@r` under
`manifestC5`.  Fallback is enabled and the issuer is *not* excluded for
the requested name `"B"` (the exclusion list has no `"B"` key), so the
claim predicts the fallback pool entry `B -> br` is consulted and the
resolution succeeds; but `is_excluded_from_fallback` keys the exclusion
list by the *issuer's* name `"A"` (src/lib.rs lines 302-308), finds the
issuer's reference there, skips the fallback pool, and the call returns
an `UndeclaredDependency` error. -/
theorem c5_counterexample :
    manifestC5.enableTopLevelFallback = true ∧
    claimExcludedForName manifestC5 c5locA (cs "B") = false ∧
    is_excluded_from_fallback manifestC5 c5locA = true ∧
    mapLookup c5infoA.packageDependencies (cs "B") = none ∧
    mapLookup manifestC5.fallbackPool (cs "B")
      = some (some (.reference (cs "br"))) ∧
    ROut.isUndeclared
      (resolve_to_unqualified_via_manifest manifestC5 (cs "B") (cs "/p/x.js"))
      = true := by
  exact ⟨rfl, by decide, by decide, rfl, rfl, by decide⟩

/-- C5 (amended): once the issuer's locator and package are found, (a) a
`Some` binding in the issuer's own `package_dependencies` is always used —
the outcome is `resolveVia` on that binding, an expression that never
reads the fallback pool; (b) when the requested name is absent from the
issuer's dependencies, the fallback pool is consulted exactly when
`enable_top_level_fallback` holds and the issuer is not excluded, where
exclusion is keyed by the *issuer locator's* name and reference
(`is_excluded_from_fallback`), not by the requested name: if the gate
holds the outcome is determined by the pool entry for the name, and if it
fails the outcome is the `UndeclaredDependency` error, again independent
of the pool. -/
theorem c5_amended (m : Manifest) (specifier parent ident : List Char)
    (mp : Option (List Char)) (L : PackageLocator) (pkg : PackageInformation)
    (hparse : parse_bare_identifier specifier = .ok (ident, mp))
    (hloc : find_locator m parent = .ok (some L))
    (hpkg : get_package m L = .ok pkg) :
    (∀ b, mapLookup pkg.packageDependencies ident = some (some b) →
      resolve_to_unqualified_via_manifest m specifier parent
        = resolveVia m ident mp b) ∧
    (mapLookup pkg.packageDependencies ident = none →
      ((m.enableTopLevelFallback && !is_excluded_from_fallback m L) = true →
        resolve_to_unqualified_via_manifest m specifier parent
          = resolveAfterDeps m specifier ident mp L parent
              (mapLookup m.fallbackPool ident)) ∧
      ((m.enableTopLevelFallback && !is_excluded_from_fallback m L) = false →
        resolve_to_unqualified_via_manifest m specifier parent
          = resolveAfterDeps m specifier ident mp L parent none)) := by
  simp only [resolve_to_unqualified_via_manifest, hparse, hloc, hpkg]
  constructor
  · intro b hb
    simp only [hb]
    rfl
  · intro habs
    simp only [habs]
    constructor
    · intro hcond
      rw [if_pos hcond]
    · intro hcond
      rw [if_neg (by rw [hcond]; exact Bool.false_ne_true)]

/-- C5 amended witness: the (b)-false branch at `manifestC5` — the issuer
is excluded, so the outcome is the undeclared-dependency tail with the
pool never consulted. -/
theorem c5_amended_witness :
    resolve_to_unqualified_via_manifest manifestC5 (cs "C") (cs "/p/x.js")
      = resolveAfterDeps manifestC5 (cs "C") (cs "C") none c5locA
          (cs "/p/x.js") none :=
  ((c5_amended manifestC5 (cs "C") (cs "/p/x.js") (cs "C") none c5locA
      c5infoA (by decide) (by decide) (by decide)).2 rfl).2 (by decide)

/-! ### C9 — manifest loading and the `init_pnp_manifest` assertions -/

/-- The `'` character, kept out of literals as `Char.ofNat 39`. -/
def quoteCh : Char := Char.ofNat 39

/-- The backslash character. -/
def backslashCh : Char := Char.ofNat 92

/-- Modelled: the component view of `std::path::Path` for Unix paths —
repeated separators collapse, `"."` components are dropped except as the
leading component of a relative path, a trailing slash is ignored. -/
def pathComponents (p : List Char) : List (List Char) :=
  let raw := (splitBy (fun c => c = '/') p).filter (fun c => ¬c = [])
  match raw with
  | [] => []
  | c0 :: rest =>
    let rest' := rest.filter (fun c => ¬c = ['.'])
    if isRooted p then (c0 :: rest').filter (fun c => ¬c = ['.'])
    else c0 :: rest'

/-- Modelled: `std::path::Path::parent` for Unix paths — `none` exactly
when the path has no components beyond a root (`""`, `"/"`, `"/."`, …),
otherwise the path minus its last component. -/
def parentPath (p : List Char) : Option (List Char) :=
  match pathComponents p with
  | [] => none
  | [_] => some (if isRooted p then ['/'] else [])
  | comps => some ((if isRooted p then ['/'] else []) ++ joinSlash comps.dropLast)

/-- Sanity: `parentPath` against `std::path::Path::parent` on Unix. -/
theorem parentPath_cases :
    parentPath (cs "/") = none ∧ parentPath [] = none ∧
    parentPath (cs "/a/b") = some (cs "/a") ∧
    parentPath (cs "/a") = some (cs "/") ∧
    parentPath (cs "a") = some [] := by
  decide

/-- `PathBuf::join` for Unix paths: an absolute right side replaces the
base, otherwise a separator is inserted unless the base is empty or
already ends in one. -/
def pathJoin (base rel : List Char) : List Char :=
  if isRooted rel then rel
  else if base = [] then rel
  else if endsSlash base then base ++ rel
  else base ++ '/' :: rel

/-- One package record of the registry rewrite of `init_pnp_manifest`
(src/lib.rs lines 232-238): `package_location` becomes the normalized
join with the manifest directory. -/
def relocate (dir : List Char) (info : PackageInformation) :
    PackageInformation :=
  { info with packageLocation := normalize_path (pathJoin dir info.packageLocation) }

/-- The registry rewrite of `init_pnp_manifest` (src/lib.rs lines
232-238). -/
def initRegistry (dir : List Char)
    (reg : List (List Char × List (List Char × PackageInformation))) :
    List (List Char × List (List Char × PackageInformation)) :=
  reg.map (fun nr => (nr.1, nr.2.map (fun ri => (ri.1, relocate dir ri.2))))

/-- The trie fill of `init_pnp_manifest` (src/lib.rs lines 240-245):
insert every non-discarded package's normalized location. -/
def initTrie (dir : List Char) (trie0 : List (List Char × PackageLocator))
    (reg : List (List Char × List (List Char × PackageInformation))) :
    List (List Char × PackageLocator) :=
  reg.foldl (fun t nr => nr.2.foldl (fun t2 ri =>
    if !ri.2.discardFromLookup then
      trieInsert t2 (normalize_path (pathJoin dir ri.2.packageLocation))
        ⟨nr.1, ri.1⟩
    else t2) t) trie0

/-- `init_pnp_manifest` (src/lib.rs lines 227-261): the `.expect`s on the
parent directory and on the two top-level registry keys are panics,
modelled by `.error` carrying the panic message; the fallback pool is
completed with the top-level package's dependencies for names not already
bound. -/
def init_pnp_manifest (m : Manifest) (p : List Char) :
    Except String Manifest :=
  match parentPath p with
  | none => .error "Should have a parent directory"
  | some dir =>
    let reg2 := initRegistry dir m.packageRegistryData
    let trie2 := initTrie dir m.locationTrie m.packageRegistryData
    match mapLookup reg2 (cs "") with
    | none => .error "Assertion failed: Should have a top-level name key"
    | some ranges =>
      match mapLookup ranges (cs "") with
      | none => .error "Assertion failed: Should have a top-level range key"
      | some topPkg =>
        let pool2 := topPkg.packageDependencies.foldl
          (fun pool nd =>
            match mapLookup pool nd.1 with
            | none => pool ++ [nd]
            | some _ => pool) m.fallbackPool
        .ok { m with manifestPath := p, manifestDir := dir, packageRegistryData := reg2, locationTrie := trie2, fallbackPool := pool2 }

/-- The whitespace class `[ \n]` of the payload-marker regex. -/
def wsCh (c : Char) : Bool := c = ' ' || c = '\n'

/-- One attempt of the payload-marker regex
`(const[ \n]+RAW_RUNTIME_STATE[ \n]*=[ \n]*|hydrateRuntimeState\(JSON\.parse\()'`
(src/lib.rs lines 183-188) anchored at position `i`, alternation tried
left to right; returns the end offset of the match (one past the quote). -/
def markerMatchAt (s : List Char) (i : Nat) : Option Nat :=
  let t := s.drop i
  let branchA : Option Nat :=
    if (cs "const").isPrefixOf t then
      let t1 := t.drop 5
      let w1 := (t1.takeWhile wsCh).length
      if w1 = 0 then none
      else
        let t2 := t1.drop w1
        if (cs "RAW_RUNTIME_STATE").isPrefixOf t2 then
          let t3 := t2.drop 17
          let w2 := (t3.takeWhile wsCh).length
          let t4 := t3.drop w2
          if t4.head? = some '=' then
            let t5 := t4.tail
            let w3 := (t5.takeWhile wsCh).length
            let t6 := t5.drop w3
            if t6.head? = some quoteCh then
              some (i + 5 + w1 + 17 + w2 + 1 + w3 + 1)
            else none
          else none
        else none
    else none
  match branchA with
  | some e => some e
  | none =>
    if ((cs "hydrateRuntimeState(JSON.parse(") ++ [quoteCh]).isPrefixOf t then
      some (i + 32)
    else none

/-- `Regex::find`: leftmost match, scanning positions left to right;
fueled structural recursion over the remaining positions. -/
def findMarker (s : List Char) : Nat → Nat → Option Nat
  | 0, _ => none
  | fuel + 1, i =>
    if i < s.length then
      match markerMatchAt s i with
      | some e => some e
      | none => findMarker s fuel (i + 1)
    else none

/-- The quote-terminated, backslash-escaped payload scan of
`load_pnp_manifest` (src/lib.rs lines 197-214). -/
def payloadScan : List Char → Bool → List Char
  | [], _ => []
  | c :: rest, escaped =>
    if c = quoteCh ∧ escaped = false then []
    else if c = backslashCh ∧ escaped = false then payloadScan rest true
    else c :: payloadScan rest false

/-- Locating and scanning the JSON payload inside the manifest text
(src/lib.rs lines 183-214). -/
def extractPayload (content : List Char) : Option (List Char) :=
  match findMarker content (content.length + 1) 0 with
  | none => none
  | some e => some (payloadScan (content.drop e) false)

/-- Outcome of `load_pnp_manifest`, with the panics of
`init_pnp_manifest` explicit. -/
inductive LoadOutcome where
  | ok (m : Manifest)
  | err (e : RError)
  | panicked (msg : String)

/-- `load_pnp_manifest` (src/lib.rs lines 173-225) on an already-read
file content; JSON deserialization (the external `serde_json`) is the
`parseManifest` parameter.  The source's hydration-error messages embed
the underlying serde error, which the model elides. -/
def load_pnp_manifest (content : List Char)
    (parseManifest : List Char → Option Manifest) (p : List Char) :
    LoadOutcome :=
  match extractPayload content with
  | none =>
    .err (.failedManifestHydration
      ⟨cs "We failed to locate the PnP data payload inside its manifest file. Did you manually edit the file?",
       p⟩)
  | some json =>
    match parseManifest json with
    | none =>
      .err (.failedManifestHydration
        ⟨cs "We failed to parse the PnP data payload as proper JSON; Did you manually edit the file?",
         p⟩)
    | some m =>
      match init_pnp_manifest m p with
      | .error msg => .panicked msg
      | .ok m2 => .ok m2

/-- The parsed manifest's registry lacks a top-level entry: either no
empty-name key, or an empty-name key whose map lacks the empty-reference
key. -/
def registryLacksTopLevel (m : Manifest) : Prop :=
  mapLookup m.packageRegistryData (cs "") = none ∨
  ∃ rs, mapLookup m.packageRegistryData (cs "") = some rs ∧
    mapLookup rs (cs "") = none

/-- Looking up in a value-mapped association list. -/
theorem mapLookup_map_snd {β γ : Type} (g : β → γ)
    (l : List (List Char × β)) (k : List Char) :
    mapLookup (l.map (fun kv => (kv.1, g kv.2))) k
      = (mapLookup l k).map g := by
  induction l with
  | nil => rfl
  | cons kv rest ih =>
    show (if kv.1 = k then some (g kv.2) else _) = _
    by_cases hk : kv.1 = k
    · rw [if_pos hk]
      show _ = (if kv.1 = k then some kv.2 else mapLookup rest k).map g
      rw [if_pos hk]
      rfl
    · rw [if_neg hk]
      show _ = (if kv.1 = k then some kv.2 else mapLookup rest k).map g
      rw [if_neg hk]
      exact ih

/-- `initRegistry` keeps the key structure: a lookup in the rewritten
registry is the value-mapped lookup in the original. -/
theorem mapLookup_initRegistry (dir : List Char)
    (reg : List (List Char × List (List Char × PackageInformation)))
    (k : List Char) :
    mapLookup (initRegistry dir reg) k
      = (mapLookup reg k).map
          (fun rs => rs.map (fun ri => (ri.1, relocate dir ri.2))) :=
  mapLookup_map_snd _ reg k

/-- C9: if the manifest text yields a payload and the payload parses, but
the parsed manifest's `package_registry_data` lacks the top-level
empty-name/empty-reference entry, `load_pnp_manifest` panics via the
`init_pnp_manifest` assertions instead of returning a
`FailedManifestHydration` error; likewise when the manifest path has no
parent directory. -/
theorem c9_init_assertions_panic (content j p : List Char)
    (parseManifest : List Char → Option Manifest) (m : Manifest)
    (hex : extractPayload content = some j)
    (hp : parseManifest j = some m) :
    (registryLacksTopLevel m →
      ∃ msg, load_pnp_manifest content parseManifest p = .panicked msg) ∧
    (parentPath p = none →
      ∃ msg, load_pnp_manifest content parseManifest p = .panicked msg) := by
  constructor
  · intro hlack
    simp only [load_pnp_manifest, hex, hp]
    unfold init_pnp_manifest
    cases hpar : parentPath p with
    | none => exact ⟨"Should have a parent directory", rfl⟩
    | some dir =>
      rcases hlack with hnone | ⟨rs, hrs, hinner⟩
      · refine ⟨"Assertion failed: Should have a top-level name key", ?_⟩
        simp only [mapLookup_initRegistry, hnone, Option.map]
      · refine ⟨"Assertion failed: Should have a top-level range key", ?_⟩
        simp only [mapLookup_initRegistry, hrs, Option.map,
          mapLookup_map_snd, hinner]
  · intro hpar
    simp only [load_pnp_manifest, hex, hp]
    unfold init_pnp_manifest
    rw [hpar]
    exact ⟨"Should have a parent directory", rfl⟩

/-- A manifest with nothing in it, for the C9 witness. -/
def emptyManifest : Manifest :=
  ⟨[], [], [], false, none, [], [], [], []⟩

/-- The C9 witness manifest text: `const RAW_RUNTIME_STATE = 'x'`. -/
def c9content : List Char :=
  cs "const RAW_RUNTIME_STATE = " ++ [quoteCh, 'x', quoteCh]

/-- C9 witness: the empty-registry manifest parsed from a concrete
marker-bearing text panics for both reasons (`registryLacksTopLevel`
because the registry is empty; the path `"/"` has no parent). -/
theorem c9_witness :
    (∃ msg, load_pnp_manifest c9content (fun _ => some emptyManifest)
      (cs "/") = .panicked msg) ∧
    (∃ msg, load_pnp_manifest c9content (fun _ => some emptyManifest)
      (cs "/") = .panicked msg) :=
  have h := c9_init_assertions_panic c9content (cs "x") (cs "/")
    (fun _ => some emptyManifest) emptyManifest (by decide) rfl
  ⟨h.1 (Or.inl rfl), h.2 (by decide)⟩

/-! ### C10 — broken_ancestors is always empty -/

/-- The `broken_ancestors` list of a `MissingPeerDependency` outcome,
`none` for every other outcome. -/
def brokenAncestorsOf : ROut → Option (List PackageLocator)
  | .err (.missingPeerDependency e) => some e.brokenAncestors
  | _ => none

/-- `parse_bare_identifier` only ever fails with a `BadSpecifier`. -/
theorem parse_bare_identifier_error (s : List Char) (e : RError)
    (h : parse_bare_identifier s = .error e) :
    ∃ b, e = .badSpecifier b := by
  unfold parse_bare_identifier at h
  split at h
  · exact Except.noConfusion h
  · exact ⟨_, (Except.error.injEq _ _).mp h |>.symm⟩

/-- Every branch of the resolution tail yields an empty (or absent)
`broken_ancestors` list: the error is constructed with the literal `[]`
(src/lib.rs line 469). -/
theorem brokenAncestorsOf_resolveAfterDeps (m : Manifest)
    (specifier ident : List Char) (mp : Option (List Char))
    (L : PackageLocator) (parent : List Char)
    (r : Option (Option PackageDependency)) :
    brokenAncestorsOf (resolveAfterDeps m specifier ident mp L parent r)
      = none ∨
    brokenAncestorsOf (resolveAfterDeps m specifier ident mp L parent r)
      = some [] := by
  match r with
  | none => exact Or.inl rfl
  | some none => exact Or.inr rfl
  | some (some d) =>
    have hv : resolveAfterDeps m specifier ident mp L parent (some (some d))
        = resolveVia m ident mp d := rfl
    rw [hv]
    cases hg : get_package m (depTarget ident d) with
    | error msg => simp only [resolveVia, hg]; exact Or.inl rfl
    | ok depPkg => simp only [resolveVia, hg]; exact Or.inl rfl

/-- C10: every `MissingPeerDependency` error returned by
`resolve_to_unqualified_via_manifest` carries an empty `broken_ancestors`
list — for every manifest, specifier and parent path, the resolution
outcome either is not a missing-peer error at all or records `[]` as its
broken ancestors (`find_broken_peer_dependencies` returns the empty
vector and the error is built with an empty list). -/
theorem c10_broken_ancestors_empty (m : Manifest)
    (specifier parent : List Char) :
    brokenAncestorsOf
      (resolve_to_unqualified_via_manifest m specifier parent) = none ∨
    brokenAncestorsOf
      (resolve_to_unqualified_via_manifest m specifier parent) = some [] := by
  unfold resolve_to_unqualified_via_manifest
  split
  · rename_i e hparse
    obtain ⟨b, rfl⟩ := parse_bare_identifier_error _ _ hparse
    exact Or.inl rfl
  · split
    · exact Or.inl rfl
    · exact Or.inl rfl
    · split
      · exact Or.inl rfl
      · exact brokenAncestorsOf_resolveAfterDeps m specifier _ _ _ parent _

end PnP
